import Mathlib

/-!
Verification of the in-memory query cache of the firestore-helper library
(src/src/cache/cacheManager.ts) and its integration with the CRUD operations
(createData.ts, updateData.ts, deleteData.ts, listenData.ts, and the cached
getData variant).

The TypeScript code is shallowly embedded: the JavaScript `Map` backing the
cache is modelled as an insertion-ordered association list (JS `Map` iterates
in insertion order, and overwriting an existing key keeps its position),
`Date.now()` timestamps become explicit `Nat` parameters, and the numeric
configuration fields (`ttl`, `maxSize`) become `Int` so that non-positive
configurations are representable exactly as in JS.
-/

namespace FirestoreHelper

/-- JSON-like values appearing in selector objects passed to
`CacheManager.createKey` (strings, numbers, booleans, null, `undefined`,
arrays).  `undef` models the JS value `undefined`, which `createKey` drops
and which `JSON.stringify` renders as `null` inside arrays. -/
inductive JsValue where
  | str (s : String)
  | num (n : Int)
  | bool (b : Bool)
  | null
  | undef
  | arr (xs : List JsValue)

/-- The JS test `v !== undefined`, negated: true exactly on `undef`. -/
def JsValue.isUndef : JsValue → Bool
  | JsValue.undef => true
  | _ => false

/-- One escaped character of a JSON string literal, per `JSON.stringify`
(backslash and double quote get a backslash; the value alphabet used by this
library needs no other escapes). -/
def jsonEscapeChar (c : Char) : List Char :=
  if c = '\\' then ['\\', '\\']
  else if c = '"' then ['\\', '"']
  else [c]

/-- A JSON string literal for `s`, as produced by `JSON.stringify`. -/
def jsonQuote (s : String) : String :=
  String.mk ('"' :: (s.data.map jsonEscapeChar).flatten ++ ['"'])

mutual

/-- `JSON.stringify` of a `JsValue` (a bare `undefined` serializes as inside
an array, i.e. as `null`; `createKey` never reaches that case because it drops
`undefined` values first). -/
def JsValue.stringify : JsValue → String
  | JsValue.str s => jsonQuote s
  | JsValue.num n => toString n
  | JsValue.bool b => cond b "true" "false"
  | JsValue.null => "null"
  | JsValue.undef => "null"
  | JsValue.arr xs => "[" ++ stringifyElems xs ++ "]"

/-- Comma-separated serialization of array elements. -/
def stringifyElems : List JsValue → String
  | [] => ""
  | [x] => JsValue.stringify x
  | x :: y :: xs => JsValue.stringify x ++ "," ++ stringifyElems (y :: xs)

end

/-- `JSON.stringify` of a flat JS object given as an ordered key/value list
(the object `createKey` builds by its `reduce`).  Written with `\x7b`/`\x7d`
for the brace characters. -/
def stringifyObj (fields : List (String × JsValue)) : String :=
  "\x7b" ++
    String.intercalate ","
      (fields.map (fun p => jsonQuote p.1 ++ ":" ++ p.2.stringify)) ++
  "\x7d"

/-- Lexicographic comparison of character lists by code point: the order
`Array.prototype.sort` applies to the key strings of a selector object. -/
def charListLe : List Char → List Char → Bool
  | [], _ => true
  | _ :: _, [] => false
  | a :: as, b :: bs => if a < b then true else if b < a then false else charListLe as bs

/-- JS default string comparison (`a <= b` by code units). -/
def strLe (a b : String) : Bool :=
  charListLe a.data b.data

/-- Insertion into a sorted list under a Boolean comparator. -/
def orderedInsertB {α : Type} (le : α → α → Bool) (a : α) : List α → List α
  | [] => [a]
  | b :: l => if le a b then a :: b :: l else b :: orderedInsertB le a l

/-- Insertion sort under a Boolean comparator; a stable sort, hence (on the
duplicate-free key lists it is applied to) extensionally the JS
`Array.prototype.sort`. -/
def insertionSortB {α : Type} (le : α → α → Bool) : List α → List α
  | [] => []
  | b :: l => orderedInsertB le b (insertionSortB le l)

/-- JS `String.prototype.startsWith`, modelled on the underlying character
list. -/
def strStartsWith (s p : String) : Bool :=
  p.data.isPrefixOf s.data

/-- `key.split(":")[0]`: the longest prefix of `key` before the first `':'`
(the whole string when there is no `':'`). -/
def pathComponent (k : String) : String :=
  String.mk (k.data.takeWhile (fun c => c ≠ ':'))

/-! ## The JS `Map` model -/

/-- `Map.prototype.get`. -/
def mapGet {β : Type} (m : List (String × β)) (k : String) : Option β :=
  (m.find? (fun p => p.1 == k)).map (fun p => p.2)

/-- `Map.prototype.set`: overwrite in place if the key is present (JS `Map`
keeps the original insertion position), otherwise append. -/
def mapSet {β : Type} (m : List (String × β)) (k : String) (v : β) :
    List (String × β) :=
  if m.any (fun p => p.1 == k) then
    m.map (fun p => if p.1 == k then (k, v) else p)
  else
    m ++ [(k, v)]

/-- `Map.prototype.delete`. -/
def mapDelete {β : Type} (m : List (String × β)) (k : String) :
    List (String × β) :=
  m.filter (fun p => p.1 != k)

/-! ## Cache data model (cacheManager.ts) -/

/-- `CacheItem<T>`: `data`, `timestamp` (write time) and `lastAccessed`. -/
structure CacheItem (α : Type) where
  data : α
  timestamp : Nat
  lastAccessed : Nat
deriving DecidableEq

/-- `Required<CacheConfig>`: the resolved configuration held by the manager.
`ttl` and `maxSize` are `Int` because the TS fields are JS numbers that may
be set to zero or negative values. -/
structure CacheConfigR where
  ttl : Int
  maxSize : Int
  enabled : Bool
  cleanupInterval : Int
deriving DecidableEq

/-- The defaults applied by the `CacheManager` constructor. -/
def defaultConfig : CacheConfigR :=
  { ttl := 300000, maxSize := 100, enabled := true, cleanupInterval := 60000 }

/-- A partial `CacheConfig` as accepted by `configure` / `getInstance`. -/
structure CacheConfigPatch where
  ttl : Option Int := none
  maxSize : Option Int := none
  enabled : Option Bool := none
  cleanupInterval : Option Int := none

/-- The mutable state of a `CacheManager` instance: the backing `Map` (in
insertion order) and the resolved configuration. -/
structure CacheState (α : Type) where
  cache : List (String × CacheItem α)
  config : CacheConfigR
deriving DecidableEq

/-- A fresh `CacheManager` with an empty map. -/
def initState {α : Type} (cfg : CacheConfigR) : CacheState α :=
  { cache := [], config := cfg }

namespace CacheManager

/-- `configure`: spread-merge the patch over the current configuration.
(The cleanup-timer restart has no counterpart in this timeless model.) -/
def configure {α : Type} (p : CacheConfigPatch) (s : CacheState α) :
    CacheState α :=
  { s with
    config :=
      { ttl := p.ttl.getD s.config.ttl
        maxSize := p.maxSize.getD s.config.maxSize
        enabled := p.enabled.getD s.config.enabled
        cleanupInterval := p.cleanupInterval.getD s.config.cleanupInterval } }

/-- `isExpired`: `Date.now() - item.timestamp > this.config.ttl`. -/
def isExpired (now : Nat) (cfg : CacheConfigR) {α : Type} (item : CacheItem α) :
    Bool :=
  (now : Int) - (item.timestamp : Int) > cfg.ttl

/-- `get<T>(key)`: returns the value (updating `lastAccessed`) or `null`,
deleting the entry when it is expired.  The returned pair is
(returned value, state after the call). -/
def get {α : Type} (now : Nat) (key : String) (s : CacheState α) :
    Option α × CacheState α :=
  if !s.config.enabled then (none, s)
  else
    match mapGet s.cache key with
    | none => (none, s)
    | some item =>
      if isExpired now s.config item then
        (none, { s with cache := mapDelete s.cache key })
      else
        (some item.data,
         { s with cache := mapSet s.cache key { item with lastAccessed := now } })

/-- The body of `removeLRU`'s scan: fold over the entries keeping the key of
the last entry whose `lastAccessed` is at most the running minimum (the scan
starts from `Date.now()` and uses `<=`). -/
def lruFoldStep {α : Type} (acc : Option String × Nat) (e : String × CacheItem α) :
    Option String × Nat :=
  if e.2.lastAccessed ≤ acc.2 then (some e.1, e.2.lastAccessed) else acc

/-- `removeLRU`: delete the least-recently-accessed entry.  The final
`if (lruKey)` is a JS truthiness test, so a found key equal to the empty
string is not deleted. -/
def removeLRU {α : Type} (now : Nat) (cache : List (String × CacheItem α)) :
    List (String × CacheItem α) :=
  if cache.length = 0 then cache
  else
    match (cache.foldl lruFoldStep (none, now)).1 with
    | some k => if k == "" then cache else mapDelete cache k
    | none => cache

/-- `set<T>(key, data)`: no-op when disabled; evict via `removeLRU` whenever
`size >= maxSize` (regardless of whether `key` is already present), then
insert/overwrite with `timestamp = lastAccessed = now`. -/
def set {α : Type} (now : Nat) (key : String) (data : α) (s : CacheState α) :
    CacheState α :=
  if !s.config.enabled then s
  else
    let c :=
      if (s.cache.length : Int) ≥ s.config.maxSize then removeLRU now s.cache
      else s.cache
    { s with cache := mapSet c key { data := data, timestamp := now, lastAccessed := now } }

/-- `has(key)`: like `get` but without touching recency; still deletes an
expired entry. -/
def has {α : Type} (now : Nat) (key : String) (s : CacheState α) :
    Bool × CacheState α :=
  if !s.config.enabled then (false, s)
  else
    match mapGet s.cache key with
    | none => (false, s)
    | some item =>
      if isExpired now s.config item then
        (false, { s with cache := mapDelete s.cache key })
      else
        (true, s)

/-- `remove(key)`: delete the entry if the backing map has the key. -/
def remove {α : Type} (key : String) (s : CacheState α) : CacheState α :=
  if s.cache.any (fun p => p.1 == key) then
    { s with cache := mapDelete s.cache key }
  else s

/-- `clear()`. -/
def clear {α : Type} (s : CacheState α) : CacheState α :=
  { s with cache := [] }

/-- The record returned by `getStats()`. -/
structure Stats where
  size : Nat
  config : CacheConfigR
  oldestItem : Nat
  newestItem : Nat
deriving DecidableEq

/-- `getStats()`: size, configuration and the extremal write timestamps
(`oldest` starts from `Date.now()`, `newest` from 0). -/
def getStats {α : Type} (now : Nat) (s : CacheState α) : Stats :=
  { size := s.cache.length
    config := s.config
    oldestItem := s.cache.foldl (fun acc e => min acc e.2.timestamp) now
    newestItem := s.cache.foldl (fun acc e => max acc e.2.timestamp) 0 }

/-- JS property read `options[key]` on the selector object, which we model as
an association list with distinct keys. -/
def objLookup (options : List (String × JsValue)) (k : String) : Option JsValue :=
  (options.find? (fun p => p.1 == k)).map (fun p => p.2)

/-- The per-key selection that the `reduce` in `createKey` performs,
expressed as an `Option`: the binding for `k` when it exists and its value
is not `undefined`. -/
def canonSelect (options : List (String × JsValue)) (k : String) :
    Option (String × JsValue) :=
  match objLookup options k with
  | some v => if v.isUndef then none else some (k, v)
  | none => none

/-- The `reduce` in `createKey`: walk the sorted key list and keep the
bindings whose value is not `undefined`, in order. -/
def canonPairs (options : List (String × JsValue)) : List (String × JsValue) :=
  (insertionSortB strLe (options.map Prod.fst)).foldl
    (fun acc k =>
      match objLookup options k with
      | some v => if v.isUndef then acc else acc ++ [(k, v)]
      | none => acc) []

/-- `createKey(path, options)`: `Object.keys` sorted lexicographically,
`undefined`-valued keys dropped, the remaining object serialized and appended
to `"path:"`.  (`Array.prototype.sort` is embedded as insertion sort; on the
duplicate-free key list the sorted result is the same.) -/
def createKey (path : String) (options : List (String × JsValue)) : String :=
  path ++ ":" ++ stringifyObj (canonPairs options)

/-- The key filter of `invalidateByPath`: the part of the key before the
first `':'` equals `path` or starts with `path ++ "/"`. -/
def keyMatchesPath (path key : String) : Bool :=
  pathComponent key == path || strStartsWith (pathComponent key) (path ++ "/")

/-- `invalidateByPath(path)`: collect the matching keys, then delete each. -/
def invalidateByPath {α : Type} (path : String) (s : CacheState α) :
    CacheState α :=
  if !s.config.enabled then s
  else
    let keysToRemove := (s.cache.map Prod.fst).filter (keyMatchesPath path)
    { s with cache := keysToRemove.foldl mapDelete s.cache }

/-- The key filter of `invalidateCollection`: the raw key starts with
`collectionPath ++ ":"` or `collectionPath ++ "/"`. -/
def keyMatchesCollection (collectionPath key : String) : Bool :=
  strStartsWith key (collectionPath ++ ":") ||
    strStartsWith key (collectionPath ++ "/")

/-- `invalidateCollection(collectionPath)`. -/
def invalidateCollection {α : Type} (collectionPath : String)
    (s : CacheState α) : CacheState α :=
  if !s.config.enabled then s
  else
    let keysToRemove :=
      (s.cache.map Prod.fst).filter (keyMatchesCollection collectionPath)
    { s with cache := keysToRemove.foldl mapDelete s.cache }

end CacheManager

/-! ## The CRUD operations around the cache -/

/-- The structured error hierarchy of the errors module, as a tagged union:
one variant per error class, each carrying the message. -/
inductive FirestoreHelperError where
  | validation (msg : String)
  | notFound (msg : String)
  | permission (msg : String)
  | network (msg : String)
  | timeout (msg : String)
  | unknown (msg : String)
deriving DecidableEq

/-- `handleError` on a value that is already a `FirestoreHelperError`
returns it unchanged (the first branch of `handleError` in the errors
module).  The embedding types every upstream failure as an
already-structured error, so this is the only reachable branch. -/
def handleError (e : FirestoreHelperError) : FirestoreHelperError := e

/-- The `Result<T>` shape `{ data, error, loading }` returned by the
operations. -/
structure OpResult (α : Type) where
  data : Option α
  error : Option FirestoreHelperError
  loading : Bool
deriving DecidableEq

/-- Outcome of the upstream document fetch (`getDoc`): a snapshot that
exists, a snapshot that does not (`!snapshot.exists()`), or a rejection of
the awaited promise. -/
inductive DocFetch (α : Type) where
  | ok (d : α)
  | missing
  | threw (e : FirestoreHelperError)
deriving DecidableEq

/-- The selector object `{ docId, where, orderBy, limit }` that the cached
`getData` passes to `createKey` for a plain document read: only `docId` is
set, the other three properties are `undefined`. -/
def docSelector (docId : String) : List (String × JsValue) :=
  [("docId", JsValue.str docId), ("where", JsValue.undef),
   ("orderBy", JsValue.undef), ("limit", JsValue.undef)]

/-- The cache key the cached `getData` uses for a plain document read. -/
def docKey (path docId : String) : String :=
  CacheManager.createKey path (docSelector docId)

/-- The fetch-and-cache tail of the cached `getData` (document branch): on a
missing document return a `NotFoundError`, on a rejection return the
structured error, and on success cache the result under `cacheKey` (first
tightening the global ttl when a truthy per-request `cacheTTL` was given).
The collection branch fails only through the same catch clause. -/
def getDataFetchDoc {α : Type} (now : Nat) (path docId : String)
    (cacheKey : Option String) (cacheTTL : Option Int) (fetch : DocFetch α)
    (s : CacheState α) : OpResult α × CacheState α :=
  match fetch with
  | DocFetch.missing =>
    ({ data := none,
       error := some (FirestoreHelperError.notFound
         ("Document not found at path: " ++ path ++ "/" ++ docId)),
       loading := false }, s)
  | DocFetch.threw e =>
    ({ data := none, error := some (handleError e), loading := false }, s)
  | DocFetch.ok d =>
    match cacheKey with
    | some k =>
      let s1 :=
        match cacheTTL with
        | some t => if t ≠ 0 then CacheManager.configure { ttl := some t } s else s
        | none => s
      ({ data := some d, error := none, loading := false },
       CacheManager.set now k d s1)
    | none => ({ data := some d, error := none, loading := false }, s)

/-- The cached `getData`, document branch: validate the path, build the
cache key when `useCache` is set, consult the cache (the JS truthiness test
`if (cachedData)` on the cached value is the `truthy` parameter), and on a
miss fall through to the fetch tail.  Returns the `Result` together with
the cache state after the call. -/
def getData {α : Type} (now : Nat) (path docId : String) (useCache : Bool)
    (cacheTTL : Option Int) (truthy : α → Bool) (fetch : DocFetch α)
    (s : CacheState α) : OpResult α × CacheState α :=
  if path = "" then
    ({ data := none,
       error := some (FirestoreHelperError.validation
         "Path parameter is required for getData"),
       loading := false }, s)
  else if useCache then
    let k := docKey path docId
    let res := CacheManager.get now k s
    match res.1 with
    | some d =>
      if truthy d then
        ({ data := some d, error := none, loading := false }, res.2)
      else getDataFetchDoc now path docId (some k) cacheTTL fetch res.2
    | none => getDataFetchDoc now path docId (some k) cacheTTL fetch res.2
  else getDataFetchDoc now path docId none cacheTTL fetch s

/-- `deleteData`: after a successful `deleteDoc` (`writeError = none`) it
removes the cache entry `createKey(path, { docId })`, invalidates the
collection, and returns `{ data: null, error: null }`; on a rejected delete
it returns the structured error without touching the cache. -/
def deleteData {α : Type} (path docId : String)
    (writeError : Option FirestoreHelperError) (s : CacheState α) :
    OpResult α × CacheState α :=
  if path = "" then
    ({ data := none,
       error := some (FirestoreHelperError.validation
         "Path parameter is required for deleteData"),
       loading := false }, s)
  else if docId = "" then
    ({ data := none,
       error := some (FirestoreHelperError.validation
         "DocId parameter is required for deleteData"),
       loading := false }, s)
  else
    match writeError with
    | none =>
      let s1 :=
        CacheManager.remove
          (CacheManager.createKey path [("docId", JsValue.str docId)]) s
      let s2 := CacheManager.invalidateCollection path s1
      ({ data := none, error := none, loading := false }, s2)
    | some e =>
      ({ data := none, error := some (handleError e), loading := false }, s)

/-- The cache footprint of `createData`: none.  `createData` never imports
the cache manager and performs no invalidation on any of its paths (silent,
listener, or refetch); the state of the cache when it returns is the state
it was called in. -/
def createDataCacheEffect {α : Type} (s : CacheState α) : CacheState α := s

/-- The cache footprint of `updateData`: none.  `updateData` performs no
cache call on any of its paths; after a successful `updateDoc`/`setDoc` it
returns (or re-reads through `getData`/`listenData`) without invalidating
anything. -/
def updateDataCacheEffect {α : Type} (s : CacheState α) : CacheState α := s

/-- The document snapshot handler installed by `listenData`: compute the
payload from the snapshot, invalidate the cache for the subscribed path,
and only then invoke `onNext`.  The first component is the cache state in
effect when `onNext` runs; the second is the payload passed to it. -/
def documentSnapshotHandler {α β : Type} (path : String)
    (snapshotData : Option β) (s : CacheState α) : CacheState α × Option β :=
  let data := snapshotData
  let s1 := CacheManager.invalidateByPath path s
  (s1, data)

/-- The collection snapshot handler installed by `listenData`: same shape as
the document handler, with the mapped document list as payload. -/
def collectionSnapshotHandler {α β : Type} (path : String) (docs : List β)
    (s : CacheState α) : CacheState α × List β :=
  let data := docs
  let s1 := CacheManager.invalidateByPath path s
  (s1, data)

/-! ## Operation traces over the cache -/

/-- One public cache operation, with the `Date.now()` value observed by the
operations that read the clock. -/
inductive CacheOp (α : Type) where
  | get (now : Nat) (key : String)
  | set (now : Nat) (key : String) (val : α)
  | remove (key : String)
  | clear
  | invalidateByPath (path : String)
  | invalidateCollection (path : String)

/-- Apply one operation to the cache state. -/
def applyOp {α : Type} : CacheOp α → CacheState α → CacheState α
  | CacheOp.get now key, s => (CacheManager.get now key s).2
  | CacheOp.set now key v, s => CacheManager.set now key v s
  | CacheOp.remove key, s => CacheManager.remove key s
  | CacheOp.clear, s => CacheManager.clear s
  | CacheOp.invalidateByPath p, s => CacheManager.invalidateByPath p s
  | CacheOp.invalidateCollection p, s => CacheManager.invalidateCollection p s

/-- Run a list of operations in order. -/
def runOps {α : Type} : List (CacheOp α) → CacheState α → CacheState α
  | [], s => s
  | op :: rest, s => runOps rest (applyOp op s)

/-- The clock value an operation observes, if it reads the clock. -/
def opTime {α : Type} : CacheOp α → Option Nat
  | CacheOp.get now _ => some now
  | CacheOp.set now _ _ => some now
  | _ => none

/-- The clock readings along the trace are at least `t` and nondecreasing
(`Date.now()` is monotone). -/
def timeOk {α : Type} : Nat → List (CacheOp α) → Bool
  | _, [] => true
  | t, op :: rest =>
    match opTime op with
    | some u => decide (t ≤ u) && timeOk u rest
    | none => timeOk t rest

/-- The key of a `set` operation is not the empty string (trivial for
other operations). -/
def opSetKeyNe {α : Type} : CacheOp α → Prop
  | CacheOp.set _ k _ => k ≠ ""
  | _ => True

/-- No `set` in the trace uses the empty-string key. -/
def setKeysOk {α : Type} : List (CacheOp α) → Bool
  | [] => true
  | CacheOp.set _ key _ :: rest => (key != "") && setKeysOk rest
  | _ :: rest => setKeysOk rest

/-! ## Concrete fixtures used to instantiate the theorems -/

/-- A resolved configuration with the given `ttl`, `maxSize` and `enabled`
flag (cleanup interval at its default). -/
def exCfg (ttl maxSize : Int) (enabled : Bool) : CacheConfigR :=
  { ttl := ttl, maxSize := maxSize, enabled := enabled,
    cleanupInterval := 60000 }

/-- One entry `"k" ↦ 5` written at time 0, ttl 1000. -/
def c5state : CacheState Nat :=
  { cache := [("k", { data := 5, timestamp := 0, lastAccessed := 0 })],
    config := exCfg 1000 100 true }

/-- An enabled cache whose `maxSize` is 0. -/
def c3state : CacheState Nat :=
  initState (exCfg 300000 0 true)

/-- Three entries under the keys of the specification example for path
invalidation. -/
def c6state : CacheState Nat :=
  { cache :=
      [("users:\x7b\x7d", { data := 1, timestamp := 0, lastAccessed := 0 }),
       ("users/u1:\x7b\x7d", { data := 2, timestamp := 0, lastAccessed := 0 }),
       ("posts:\x7b\x7d", { data := 3, timestamp := 0, lastAccessed := 0 })],
    config := exCfg 300000 100 true }

/-- Two entries at capacity (`maxSize = 2`), `"a"` least recently used. -/
def c2state : CacheState Nat :=
  { cache :=
      [("a", { data := 1, timestamp := 0, lastAccessed := 0 }),
       ("b", { data := 2, timestamp := 1, lastAccessed := 1 })],
    config := exCfg 300000 2 true }

/-- The specification's LRU walkthrough just before its final step: with
`maxSize = 2`, `set("a",1)` at 0, `set("b",2)` at 1, then `get("a")` at 2
(which refreshes the recency of `"a"`). -/
def c2exMid : CacheState Nat :=
  (CacheManager.get 2 "a"
    (CacheManager.set 1 "b" 2
      (CacheManager.set 0 "a" 1
        (initState (exCfg 300000 2 true))))).2

/-- A fresh cached read of document `users/u1` stored as 7 at time 0. -/
def c1state : CacheState Nat :=
  { cache := [(docKey "users" "u1", { data := 7, timestamp := 0, lastAccessed := 0 })],
    config := exCfg 300000 100 true }

/-- Same entry but under a 1000 ms ttl, so it is expired by time 2000. -/
def c9state : CacheState Nat :=
  { cache := [(docKey "users" "u1", { data := 7, timestamp := 0, lastAccessed := 0 })],
    config := exCfg 1000 100 true }

/-! ## Lemmas about the `Map` model -/

theorem find?_map_overwrite_self {β : Type} (m : List (String × β)) (k : String)
    (v : β) (h : m.any (fun p => p.1 == k) = true) :
    (m.map (fun p => if p.1 == k then (k, v) else p)).find?
      (fun p => p.1 == k) = some (k, v) := by
  induction m with
  | nil => simp at h
  | cons p rest ih =>
    rw [List.map_cons]
    by_cases hp : (p.1 == k) = true
    · rw [if_pos hp]
      exact List.find?_cons_of_pos _ (by simp)
    · rw [if_neg hp, List.find?_cons_of_neg (p := fun (q : String × β) => q.1 == k) _ hp]
      simp only [List.any_cons, Bool.or_eq_true] at h
      exact ih (h.resolve_left hp)

theorem find?_map_overwrite_ne {β : Type} (m : List (String × β)) (k k' : String)
    (v : β) (h : k' ≠ k) :
    (m.map (fun p => if p.1 == k then (k, v) else p)).find?
      (fun p => p.1 == k') = m.find? (fun p => p.1 == k') := by
  induction m with
  | nil => simp
  | cons p rest ih =>
    rw [List.map_cons]
    by_cases hp : (p.1 == k) = true
    · have hpk : p.1 = k := by simpa using hp
      have hkk : ¬ ((k == k') = true) := by
        simp only [beq_iff_eq]
        exact fun hh => h hh.symm
      have hp' : ¬ ((p.1 == k') = true) := by rw [hpk]; exact hkk
      rw [if_pos hp, List.find?_cons_of_neg (p := fun (q : String × β) => q.1 == k') _ hkk,
        List.find?_cons_of_neg (p := fun (q : String × β) => q.1 == k') _ hp']
      exact ih
    · rw [if_neg hp]
      by_cases hq : (p.1 == k') = true
      · rw [List.find?_cons_of_pos (p := fun (q : String × β) => q.1 == k') _ hq,
          List.find?_cons_of_pos (p := fun (q : String × β) => q.1 == k') _ hq]
      · rw [List.find?_cons_of_neg (p := fun (q : String × β) => q.1 == k') _ hq,
          List.find?_cons_of_neg (p := fun (q : String × β) => q.1 == k') _ hq]
        exact ih

theorem mapGet_mapSet_self {β : Type} (m : List (String × β)) (k : String) (v : β) :
    mapGet (mapSet m k v) k = some v := by
  unfold mapSet mapGet
  by_cases h : m.any (fun p => p.1 == k) = true
  · rw [if_pos h, find?_map_overwrite_self m k v h]
    rfl
  · have hnone : m.find? (fun p => p.1 == k) = none := by
      rw [List.find?_eq_none]
      intro x hx hcon
      exact h (List.any_eq_true.mpr ⟨x, hx, hcon⟩)
    rw [if_neg h, List.find?_append, hnone]
    simp

theorem mapGet_mapSet_ne {β : Type} (m : List (String × β)) (k k' : String) (v : β)
    (h : k' ≠ k) : mapGet (mapSet m k v) k' = mapGet m k' := by
  unfold mapSet mapGet
  by_cases ha : m.any (fun p => p.1 == k) = true
  · rw [if_pos ha, find?_map_overwrite_ne m k k' v h]
  · have hkk : ¬ (((k, v).1 == k') = true) := by
      simp only [beq_iff_eq]
      exact fun hh => h hh.symm
    rw [if_neg ha, List.find?_append,
      List.find?_cons_of_neg (p := fun (q : String × β) => q.1 == k') _ hkk]
    simp

theorem mapGet_mapDelete_self {β : Type} (m : List (String × β)) (k : String) :
    mapGet (mapDelete m k) k = none := by
  unfold mapGet mapDelete
  have : (m.filter (fun p => p.1 != k)).find? (fun p => p.1 == k) = none := by
    rw [List.find?_eq_none]
    intro x hx
    have := (List.mem_filter.mp hx).2
    simpa [bne] using this
  simp [this]

theorem mapGet_mapDelete_ne {β : Type} (m : List (String × β)) (k k' : String)
    (h : k' ≠ k) : mapGet (mapDelete m k) k' = mapGet m k' := by
  unfold mapGet mapDelete
  congr 1
  induction m with
  | nil => simp
  | cons p rest ih =>
    by_cases hp : (p.1 == k) = true
    · have hpk : p.1 = k := by simpa using hp
      have hp' : (p.1 == k') = false := by
        rw [hpk]
        simp only [beq_eq_false_iff_ne, ne_eq]
        exact fun hh => h hh.symm
      simpa [List.filter_cons, bne, hp, List.find?_cons, hp'] using ih
    · by_cases hq : (p.1 == k') = true
      · simp [List.filter_cons, bne, hp, List.find?_cons, hq]
      · simpa [List.filter_cons, bne, hp, List.find?_cons, hq] using ih

theorem mapDelete_sublist {β : Type} (m : List (String × β)) (k : String) :
    (mapDelete m k).Sublist m :=
  List.filter_sublist m

theorem length_mapDelete_lt {β : Type} (m : List (String × β)) (k : String)
    (h : m.any (fun p => p.1 == k) = true) : (mapDelete m k).length < m.length := by
  induction m with
  | nil => simp at h
  | cons p rest ih =>
    by_cases hp : (p.1 == k) = true
    · have hs : (mapDelete rest k).length ≤ rest.length :=
        (mapDelete_sublist rest k).length_le
      have hd : mapDelete (p :: rest) k = mapDelete rest k := by
        simp [mapDelete, List.filter_cons, bne, hp]
      rw [hd, List.length_cons]
      omega
    · have h2 : rest.any (fun p => p.1 == k) = true := by
        rcases List.any_eq_true.mp h with ⟨x, hx, hpx⟩
        rcases List.mem_cons.mp hx with rfl | hx2
        · exact absurd hpx hp
        · exact List.any_eq_true.mpr ⟨x, hx2, hpx⟩
      have hlt := ih h2
      have hd : mapDelete (p :: rest) k = p :: mapDelete rest k := by
        simp [mapDelete, List.filter_cons, bne, hp]
      rw [hd, List.length_cons, List.length_cons]
      omega

theorem map_fst_mapSet {β : Type} (m : List (String × β)) (k : String) (v : β) :
    (mapSet m k v).map Prod.fst =
      if m.any (fun p => p.1 == k) then m.map Prod.fst
      else m.map Prod.fst ++ [k] := by
  unfold mapSet
  by_cases ha : m.any (fun p => p.1 == k)
  · simp only [ha, if_true, List.map_map, List.map_inj_left]
    intro p _
    by_cases hp : p.1 == k
    · have : p.1 = k := by simpa using hp
      simp [Function.comp, hp, this]
    · simp [Function.comp, hp]
  · simp [ha]

theorem length_mapSet {β : Type} (m : List (String × β)) (k : String) (v : β) :
    (mapSet m k v).length =
      if m.any (fun p => p.1 == k) then m.length else m.length + 1 := by
  have := congrArg List.length (map_fst_mapSet m k v)
  simpa [apply_ite List.length] using this

/-! ## Lemmas about invalidation -/

theorem foldl_mapDelete_eq_filter {β : Type} (ks : List String) :
    ∀ m : List (String × β),
      ks.foldl mapDelete m = m.filter (fun e => !(ks.contains e.1)) := by
  induction ks with
  | nil => intro m; simp
  | cons k rest ih =>
    intro m
    rw [List.foldl_cons, ih (mapDelete m k)]
    unfold mapDelete
    rw [List.filter_filter]
    apply List.filter_congr
    intro e _
    apply Bool.eq_iff_iff.mpr
    simp only [List.contains_cons, bne, Bool.and_eq_true, Bool.not_eq_true',
      Bool.or_eq_true, beq_eq_false_iff_ne, ne_eq, Bool.not_eq_true,
      Bool.or_eq_false_iff, beq_iff_eq]
    tauto

theorem contains_filter_keys {β : Type} (m : List (String × β))
    (q : String → Bool) (e : String × β) (he : e ∈ m) :
    ((m.map Prod.fst).filter q).contains e.1 = q e.1 := by
  by_cases hq : q e.1 = true
  · rw [hq]
    have hmem : e.1 ∈ (m.map Prod.fst).filter q :=
      List.mem_filter.mpr ⟨List.mem_map_of_mem Prod.fst he, hq⟩
    exact List.elem_iff.mpr hmem
  · have hq' : q e.1 = false := Bool.eq_false_iff.mpr hq
    rw [hq']
    cases hc : ((m.map Prod.fst).filter q).contains e.1 with
    | false => rfl
    | true =>
      have hmem := List.elem_iff.mp hc
      exact absurd (List.mem_filter.mp hmem).2 hq

theorem invalidateByPath_filter {α : Type} (path : String) (s : CacheState α)
    (hen : s.config.enabled = true) :
    (CacheManager.invalidateByPath path s).cache =
      s.cache.filter (fun e => !(CacheManager.keyMatchesPath path e.1)) := by
  unfold CacheManager.invalidateByPath
  rw [hen]
  simp only [Bool.not_true, Bool.false_eq_true, if_false]
  rw [foldl_mapDelete_eq_filter]
  apply List.filter_congr
  intro e he
  rw [contains_filter_keys s.cache (CacheManager.keyMatchesPath path) e he]

theorem invalidateCollection_filter {α : Type} (path : String) (s : CacheState α)
    (hen : s.config.enabled = true) :
    (CacheManager.invalidateCollection path s).cache =
      s.cache.filter (fun e => !(CacheManager.keyMatchesCollection path e.1)) := by
  unfold CacheManager.invalidateCollection
  rw [hen]
  simp only [Bool.not_true, Bool.false_eq_true, if_false]
  rw [foldl_mapDelete_eq_filter]
  apply List.filter_congr
  intro e he
  rw [contains_filter_keys s.cache (CacheManager.keyMatchesCollection path) e he]

theorem mapGet_filter_out {β : Type} (m : List (String × β)) (q : String × β → Bool)
    (k : String) (hq : ∀ e ∈ m, e.1 = k → q e = false) :
    mapGet (m.filter q) k = none := by
  unfold mapGet
  have : (m.filter q).find? (fun p => p.1 == k) = none := by
    rw [List.find?_eq_none]
    intro x hx hbeq
    have hxm := List.mem_filter.mp hx
    have hxk : x.1 = k := by simpa using hbeq
    have := hq x hxm.1 hxk
    rw [this] at hxm
    cases hxm.2
  simp [this]

/-! ## Reduction lemmas for the cache operations -/

theorem get_disabled {α : Type} (now : Nat) (key : String) (s : CacheState α)
    (hen : s.config.enabled = false) :
    CacheManager.get now key s = (none, s) := by
  unfold CacheManager.get
  rw [hen]
  rfl

theorem get_missing {α : Type} (now : Nat) (key : String) (s : CacheState α)
    (hen : s.config.enabled = true) (hfind : mapGet s.cache key = none) :
    CacheManager.get now key s = (none, s) := by
  unfold CacheManager.get
  rw [hen, hfind]
  rfl

theorem get_expired {α : Type} (now : Nat) (key : String) (s : CacheState α)
    (item : CacheItem α) (hen : s.config.enabled = true)
    (hfind : mapGet s.cache key = some item)
    (hexp : (now : Int) - (item.timestamp : Int) > s.config.ttl) :
    CacheManager.get now key s = (none, { s with cache := mapDelete s.cache key }) := by
  unfold CacheManager.get
  rw [hen, hfind]
  have hb : CacheManager.isExpired now s.config item = true := by
    unfold CacheManager.isExpired
    exact decide_eq_true hexp
  simp [hb]

theorem get_hit {α : Type} (now : Nat) (key : String) (s : CacheState α)
    (item : CacheItem α) (hen : s.config.enabled = true)
    (hfind : mapGet s.cache key = some item)
    (hfresh : (now : Int) - (item.timestamp : Int) ≤ s.config.ttl) :
    CacheManager.get now key s =
      (some item.data,
       { s with cache := mapSet s.cache key { item with lastAccessed := now } }) := by
  unfold CacheManager.get
  rw [hen, hfind]
  have hb : CacheManager.isExpired now s.config item = false := by
    unfold CacheManager.isExpired
    exact decide_eq_false (not_lt.mpr hfresh)
  simp [hb]

theorem set_disabled {α : Type} (now : Nat) (key : String) (v : α)
    (s : CacheState α) (hen : s.config.enabled = false) :
    CacheManager.set now key v s = s := by
  unfold CacheManager.set
  rw [hen]
  rfl

theorem set_enabled_cache {α : Type} (now : Nat) (key : String) (v : α)
    (s : CacheState α) (hen : s.config.enabled = true) :
    (CacheManager.set now key v s).cache =
      mapSet
        (if (s.cache.length : Int) ≥ s.config.maxSize then
          CacheManager.removeLRU now s.cache
         else s.cache)
        key { data := v, timestamp := now, lastAccessed := now } := by
  unfold CacheManager.set
  rw [hen]
  rfl

theorem set_config {α : Type} (now : Nat) (key : String) (v : α)
    (s : CacheState α) :
    (CacheManager.set now key v s).config = s.config := by
  unfold CacheManager.set
  rcases Bool.eq_false_or_eq_true s.config.enabled with hen | hen <;> rw [hen]
  · rfl
  · rfl

/-! ## Claims -/

/-- C5: on an enabled cache, `get` of a present entry deletes it and
returns absent when `now - writtenAt > ttlMillis`, and otherwise refreshes
`lastAccessedAt` to `now` and returns the stored value; entries under other
keys are untouched either way. -/
theorem C5_get_lazy_expiry {α : Type} (now : Nat) (key : String)
    (s : CacheState α) (item : CacheItem α)
    (hen : s.config.enabled = true)
    (hfind : mapGet s.cache key = some item) :
    ((now : Int) - (item.timestamp : Int) > s.config.ttl →
      (CacheManager.get now key s).1 = none ∧
      mapGet (CacheManager.get now key s).2.cache key = none) ∧
    ((now : Int) - (item.timestamp : Int) ≤ s.config.ttl →
      (CacheManager.get now key s).1 = some item.data ∧
      mapGet (CacheManager.get now key s).2.cache key =
        some { item with lastAccessed := now }) ∧
    (∀ k2, k2 ≠ key →
      mapGet (CacheManager.get now key s).2.cache k2 = mapGet s.cache k2) := by
  refine ⟨fun hexp => ?_, fun hfresh => ?_, fun k2 hk2 => ?_⟩
  · rw [get_expired now key s item hen hfind hexp]
    exact ⟨rfl, mapGet_mapDelete_self s.cache key⟩
  · rw [get_hit now key s item hen hfind hfresh]
    exact ⟨rfl, mapGet_mapSet_self s.cache key _⟩
  · rcases lt_or_le s.config.ttl ((now : Int) - (item.timestamp : Int)) with hexp | hfresh
    · rw [get_expired now key s item hen hfind hexp]
      exact mapGet_mapDelete_ne s.cache key k2 hk2
    · rw [get_hit now key s item hen hfind hfresh]
      exact mapGet_mapSet_ne s.cache key k2 _ hk2

/-- C5 witness: with ttl 1000 and the entry written at time 0, `get` at 500
returns the value and `get` at 1500 returns absent. -/
theorem C5_witness :
    (CacheManager.get 500 "k" c5state).1 = some 5 ∧
    (CacheManager.get 1500 "k" c5state).1 = none :=
  ⟨((C5_get_lazy_expiry 500 "k" c5state
      { data := 5, timestamp := 0, lastAccessed := 0 } (by decide)
      (by decide)).2.1 (by decide)).1,
   ((C5_get_lazy_expiry 1500 "k" c5state
      { data := 5, timestamp := 0, lastAccessed := 0 } (by decide)
      (by decide)).1 (by decide)).1⟩

/-- C3 counterexample: with `maxEntries = 0` on an enabled cache, a `set`
immediately followed by a `get` of the same key returns the value just
written, not absent as the claim states; caching does occur. -/
theorem C3_counterexample :
    (CacheManager.get 0 "k" (CacheManager.set 0 "k" (5 : Nat) c3state)).1 =
      some 5 ∧
    (CacheManager.get 0 "k" (CacheManager.set 0 "k" (5 : Nat) c3state)).1 ≠
      none := by
  constructor
  · decide
  · decide

/-- C3 amended: with `maxEntries ≤ 0` on an enabled cache, caching still
occurs: `set` evicts first (`size >= maxSize` always holds) but then
inserts, so the entry is present with `writtenAt = lastAccessedAt = now`
and a `get` within the ttl returns the value. -/
theorem C3_nonpositive_maxsize_still_caches {α : Type} (now later : Nat)
    (key : String) (v : α) (s : CacheState α)
    (hen : s.config.enabled = true) (hmax : s.config.maxSize ≤ 0)
    (hfresh : (later : Int) - (now : Int) ≤ s.config.ttl) :
    mapGet (CacheManager.set now key v s).cache key =
      some { data := v, timestamp := now, lastAccessed := now } ∧
    (CacheManager.get later key (CacheManager.set now key v s)).1 = some v := by
  have hcache := set_enabled_cache now key v s hen
  have hpresent :
      mapGet (CacheManager.set now key v s).cache key =
        some { data := v, timestamp := now, lastAccessed := now } := by
    rw [hcache]
    exact mapGet_mapSet_self _ key _
  refine ⟨hpresent, ?_⟩
  have hcfg := set_config now key v s
  have hen2 : (CacheManager.set now key v s).config.enabled = true := by
    rw [hcfg]; exact hen
  have hfresh2 :
      (later : Int) - ((now : Nat) : Int) ≤ (CacheManager.set now key v s).config.ttl := by
    rw [hcfg]; exact hfresh
  rw [get_hit later key (CacheManager.set now key v s)
    { data := v, timestamp := now, lastAccessed := now } hen2 hpresent hfresh2]

/-- C3 amended witness: `maxSize = 0`, `set` at 0 then `get` at 0 returns
the value. -/
theorem C3_witness :
    mapGet (CacheManager.set 0 "k" (5 : Nat) c3state).cache "k" =
      some { data := 5, timestamp := 0, lastAccessed := 0 } ∧
    (CacheManager.get 0 "k" (CacheManager.set 0 "k" (5 : Nat) c3state)).1 =
      some 5 :=
  C3_nonpositive_maxsize_still_caches 0 0 "k" 5 c3state (by decide) (by decide)
    (by decide)

/-- C6: on an enabled cache, `invalidateByPath p` keeps exactly the entries
whose key's embedded path component (the text before the first colon)
neither equals `p` nor starts with `p ++ "/"`: the surviving map is the
filter of the old one, every matching key reads back as absent, and every
non-matching entry survives unchanged. -/
theorem C6_invalidateByPath_scope {α : Type} (path : String)
    (s : CacheState α) (hen : s.config.enabled = true) :
    ((CacheManager.invalidateByPath path s).cache =
      s.cache.filter (fun e => !(CacheManager.keyMatchesPath path e.1))) ∧
    (∀ e ∈ s.cache, CacheManager.keyMatchesPath path e.1 = true →
      mapGet (CacheManager.invalidateByPath path s).cache e.1 = none) ∧
    (∀ e ∈ s.cache, CacheManager.keyMatchesPath path e.1 = false →
      e ∈ (CacheManager.invalidateByPath path s).cache) := by
  have hfil := invalidateByPath_filter path s hen
  refine ⟨hfil, fun e he hmatch => ?_, fun e he hmiss => ?_⟩
  · rw [hfil]
    apply mapGet_filter_out
    intro e2 he2 hkey
    rw [hkey, hmatch]
    rfl
  · rw [hfil]
    apply List.mem_filter.mpr
    exact ⟨he, by rw [hmiss]; rfl⟩

/-- C6 witness: after caching under `"users:{}"`, `"users/u1:{}"` and
`"posts:{}"`, invalidating `"users"` removes the first two entries and
keeps the third. -/
theorem C6_witness :
    ((CacheManager.invalidateByPath "users" c6state).cache =
      c6state.cache.filter
        (fun e => !(CacheManager.keyMatchesPath "users" e.1))) ∧
    (CacheManager.invalidateByPath "users" c6state).cache =
      [("posts:\x7b\x7d", { data := 3, timestamp := 0, lastAccessed := 0 })] :=
  ⟨(C6_invalidateByPath_scope "users" c6state (by decide)).1, by decide⟩

/-- C10: `configure({enabled: false})` deletes nothing (the map is exactly
the one before the call); while disabled `get` returns absent and `has`
returns false for every key without mutating the state; and after
`configure({enabled: true})` a still-unexpired entry is returned by `get`
again. -/
theorem C10_disable_preserves_entries {α : Type} (s : CacheState α) :
    ((CacheManager.configure { enabled := some false } s).cache = s.cache) ∧
    (∀ (t : Nat) (k : String),
      CacheManager.get t k (CacheManager.configure { enabled := some false } s) =
        (none, CacheManager.configure { enabled := some false } s) ∧
      CacheManager.has t k (CacheManager.configure { enabled := some false } s) =
        (false, CacheManager.configure { enabled := some false } s)) ∧
    (∀ (now : Nat) (key : String) (item : CacheItem α),
      mapGet s.cache key = some item →
      (now : Int) - (item.timestamp : Int) ≤ s.config.ttl →
      (CacheManager.get now key
        (CacheManager.configure { enabled := some true }
          (CacheManager.configure { enabled := some false } s))).1 =
        some item.data) := by
  refine ⟨rfl, fun t k => ⟨?_, ?_⟩, fun now key item hfind hfresh => ?_⟩
  · exact get_disabled t k _ rfl
  · unfold CacheManager.has
    rfl
  · have hen2 :
        (CacheManager.configure { enabled := some true }
          (CacheManager.configure { enabled := some false } s)).config.enabled =
          true := rfl
    have hfind2 :
        mapGet (CacheManager.configure { enabled := some true }
          (CacheManager.configure { enabled := some false } s)).cache key =
          some item := hfind
    have hfresh2 :
        (now : Int) - (item.timestamp : Int) ≤
          (CacheManager.configure { enabled := some true }
            (CacheManager.configure { enabled := some false } s)).config.ttl :=
      hfresh
    rw [get_hit now key _ item hen2 hfind2 hfresh2]

/-- C10 witness: disabling with one cached entry keeps the map, blinds
`get`/`has`, and re-enabling restores the unexpired entry. -/
theorem C10_witness :
    ((CacheManager.configure { enabled := some false } c5state).cache =
      c5state.cache) ∧
    (CacheManager.get 0 "k"
      (CacheManager.configure { enabled := some false } c5state) =
      (none, CacheManager.configure { enabled := some false } c5state)) ∧
    ((CacheManager.get 500 "k"
      (CacheManager.configure { enabled := some true }
        (CacheManager.configure { enabled := some false } c5state))).1 =
      some 5) :=
  ⟨(C10_disable_preserves_entries c5state).1,
   ((C10_disable_preserves_entries c5state).2.1 0 "k").1,
   (C10_disable_preserves_entries c5state).2.2 500 "k"
     { data := 5, timestamp := 0, lastAccessed := 0 } (by decide) (by decide)⟩


/-! ## Lemmas about the LRU scan -/

theorem lruFold_some_stable {α : Type} :
    ∀ (l : List (String × CacheItem α)) (acc : Option String × Nat),
      acc.1.isSome = true →
      ((l.foldl CacheManager.lruFoldStep acc).1).isSome = true := by
  intro l
  induction l with
  | nil => intro acc h; exact h
  | cons e rest ih =>
    intro acc h
    rw [List.foldl_cons]
    apply ih
    unfold CacheManager.lruFoldStep
    by_cases hle : e.2.lastAccessed ≤ acc.2
    · rw [if_pos hle]; rfl
    · rw [if_neg hle]; exact h

theorem lruFold_some_of_exists {α : Type} :
    ∀ (l : List (String × CacheItem α)) (acc : Option String × Nat),
      (∃ e ∈ l, e.2.lastAccessed ≤ acc.2) →
      ((l.foldl CacheManager.lruFoldStep acc).1).isSome = true := by
  intro l
  induction l with
  | nil => intro acc h; rcases h with ⟨e, he, _⟩; cases he
  | cons e rest ih =>
    intro acc h
    rw [List.foldl_cons]
    by_cases hle : e.2.lastAccessed ≤ acc.2
    · apply lruFold_some_stable
      unfold CacheManager.lruFoldStep
      rw [if_pos hle]
      rfl
    · have hstep : CacheManager.lruFoldStep acc e = acc := by
        unfold CacheManager.lruFoldStep
        rw [if_neg hle]
      rw [hstep]
      apply ih
      rcases h with ⟨e2, he2, hle2⟩
      rcases List.mem_cons.mp he2 with rfl | he2r
      · exact absurd hle2 hle
      · exact ⟨e2, he2r, hle2⟩

theorem lruFold_key_mem {α : Type} :
    ∀ (l : List (String × CacheItem α)) (acc : Option String × Nat) (k : String),
      (l.foldl CacheManager.lruFoldStep acc).1 = some k →
      acc.1 = some k ∨ k ∈ l.map Prod.fst := by
  intro l
  induction l with
  | nil => intro acc k h; exact Or.inl h
  | cons e rest ih =>
    intro acc k h
    rw [List.foldl_cons] at h
    rcases ih (CacheManager.lruFoldStep acc e) k h with hacc | hrest
    · unfold CacheManager.lruFoldStep at hacc
      by_cases hle : e.2.lastAccessed ≤ acc.2
      · rw [if_pos hle] at hacc
        have : e.1 = k := by simpa using hacc
        exact Or.inr (by rw [List.map_cons]; exact this ▸ List.mem_cons_self _ _)
      · rw [if_neg hle] at hacc
        exact Or.inl hacc
    · exact Or.inr (by rw [List.map_cons]; exact List.mem_cons_of_mem _ hrest)

theorem lruFold_settled {α : Type} (kmin : String) (imin : CacheItem α) :
    ∀ l : List (String × CacheItem α),
      (∀ e ∈ l, e = (kmin, imin) ∨ imin.lastAccessed < e.2.lastAccessed) →
      l.foldl CacheManager.lruFoldStep (some kmin, imin.lastAccessed) =
        (some kmin, imin.lastAccessed) := by
  intro l
  induction l with
  | nil => intro _; rfl
  | cons e rest ih =>
    intro h
    rw [List.foldl_cons]
    have hstep :
        CacheManager.lruFoldStep (some kmin, imin.lastAccessed) e =
          (some kmin, imin.lastAccessed) := by
      unfold CacheManager.lruFoldStep
      rcases h e (List.mem_cons_self _ _) with rfl | hlt
      · rw [if_pos le_rfl]
      · rw [if_neg (not_le.mpr hlt)]
    rw [hstep]
    exact ih (fun e2 he2 => h e2 (List.mem_cons_of_mem _ he2))

theorem lruFold_unique {α : Type} (kmin : String) (imin : CacheItem α) :
    ∀ (l : List (String × CacheItem α)) (acc : Option String × Nat),
      (kmin, imin) ∈ l →
      (∀ e ∈ l, e ≠ (kmin, imin) → imin.lastAccessed < e.2.lastAccessed) →
      imin.lastAccessed ≤ acc.2 →
      l.foldl CacheManager.lruFoldStep acc = (some kmin, imin.lastAccessed) := by
  intro l
  induction l with
  | nil => intro acc hm; cases hm
  | cons e rest ih =>
    intro acc hm hstrict hle
    rw [List.foldl_cons]
    by_cases heq : e = (kmin, imin)
    · subst heq
      have hstep :
          CacheManager.lruFoldStep acc (kmin, imin) =
            (some kmin, imin.lastAccessed) := by
        unfold CacheManager.lruFoldStep
        rw [if_pos hle]
      rw [hstep]
      exact lruFold_settled kmin imin rest
        (fun e2 he2 => by
          by_cases h2 : e2 = (kmin, imin)
          · exact Or.inl h2
          · exact Or.inr (hstrict e2 (List.mem_cons_of_mem _ he2) h2))
    · have hmr : (kmin, imin) ∈ rest := by
        rcases List.mem_cons.mp hm with hcon | hr
        · exact absurd hcon.symm heq
        · exact hr
      have hlt := hstrict e (List.mem_cons_self _ _) heq
      by_cases hle2 : e.2.lastAccessed ≤ acc.2
      · have hstep : CacheManager.lruFoldStep acc e = (some e.1, e.2.lastAccessed) := by
          unfold CacheManager.lruFoldStep
          rw [if_pos hle2]
        rw [hstep]
        exact ih _ hmr
          (fun e2 he2 h2 => hstrict e2 (List.mem_cons_of_mem _ he2) h2)
          (le_of_lt hlt)
      · have hstep : CacheManager.lruFoldStep acc e = acc := by
          unfold CacheManager.lruFoldStep
          rw [if_neg hle2]
        rw [hstep]
        exact ih acc hmr
          (fun e2 he2 h2 => hstrict e2 (List.mem_cons_of_mem _ he2) h2) hle


theorem mem_keys_any {β : Type} (m : List (String × β)) (k : String)
    (h : k ∈ m.map Prod.fst) : m.any (fun p => p.1 == k) = true := by
  rcases List.mem_map.mp h with ⟨e, he, hk⟩
  exact List.any_eq_true.mpr ⟨e, he, by simp [hk]⟩

theorem removeLRU_unique {α : Type} (now : Nat)
    (cache : List (String × CacheItem α)) (kmin : String) (imin : CacheItem α)
    (hm : (kmin, imin) ∈ cache)
    (hstrict : ∀ e ∈ cache, e ≠ (kmin, imin) →
      imin.lastAccessed < e.2.lastAccessed)
    (hle : imin.lastAccessed ≤ now) (hne : kmin ≠ "") :
    CacheManager.removeLRU now cache = mapDelete cache kmin := by
  unfold CacheManager.removeLRU
  have hlen : ¬ cache.length = 0 := by
    intro h0
    rw [List.length_eq_zero] at h0
    subst h0
    cases hm
  rw [if_neg hlen, lruFold_unique kmin imin cache (none, now) hm hstrict hle]
  have hkne : (kmin == "") = false := by simpa using hne
  simp [hkne]

theorem removeLRU_sublist {α : Type} (now : Nat)
    (cache : List (String × CacheItem α)) :
    (CacheManager.removeLRU now cache).Sublist cache := by
  unfold CacheManager.removeLRU
  by_cases h0 : cache.length = 0
  · rw [if_pos h0]
  · rw [if_neg h0]
    cases hk : (cache.foldl CacheManager.lruFoldStep (none, now)).1 with
    | none => exact List.Sublist.refl cache
    | some k =>
      by_cases hke : (k == "") = true
      · simp only [hke, if_true]
        exact List.Sublist.refl cache
      · simp only [hke, Bool.false_eq_true, if_false]
        exact mapDelete_sublist cache k

theorem removeLRU_progress {α : Type} (now : Nat)
    (cache : List (String × CacheItem α)) (hne : cache ≠ [])
    (hall : ∀ e ∈ cache, e.2.lastAccessed ≤ now)
    (hkey : "" ∉ cache.map Prod.fst) :
    (CacheManager.removeLRU now cache).length < cache.length := by
  unfold CacheManager.removeLRU
  have hlen : ¬ cache.length = 0 := by
    simpa [List.length_eq_zero] using hne
  rw [if_neg hlen]
  obtain ⟨e0, he0⟩ : ∃ e, e ∈ cache := List.exists_mem_of_ne_nil cache hne
  have hsome := lruFold_some_of_exists cache (none, now) ⟨e0, he0, hall e0 he0⟩
  obtain ⟨k, hk⟩ := Option.isSome_iff_exists.mp hsome
  simp only [hk]
  have hkmem : k ∈ cache.map Prod.fst := by
    rcases lruFold_key_mem cache (none, now) k hk with hacc | hm
    · simp at hacc
    · exact hm
  have hkne : (k == "") = false := by
    simp only [beq_eq_false_iff_ne, ne_eq]
    intro heq
    exact hkey (heq ▸ hkmem)
  simp only [hkne, Bool.false_eq_true, if_false]
  exact length_mapDelete_lt cache k (mem_keys_any cache k hkmem)

/-- C2 corrected: whenever `set(key, value)` runs on an enabled cache whose
size is at least `maxEntries` and the entry `(kmin, imin)` is the strictly
least recently accessed one (and `kmin` is not the empty string), that entry
is evicted regardless of whether `key` is already present — including when
`key` is present, where the claim said no eviction happens — and the
key is then bound to a fresh entry with `writtenAt = lastAccessedAt = now`,
all remaining keys reading back unchanged. -/
theorem C2_set_lru_eviction {α : Type} (now : Nat) (key : String) (v : α)
    (s : CacheState α) (kmin : String) (imin : CacheItem α)
    (hen : s.config.enabled = true)
    (hfull : (s.cache.length : Int) ≥ s.config.maxSize)
    (hm : (kmin, imin) ∈ s.cache)
    (hstrict : ∀ e ∈ s.cache, e ≠ (kmin, imin) →
      imin.lastAccessed < e.2.lastAccessed)
    (hle : imin.lastAccessed ≤ now)
    (hne : kmin ≠ "") :
    mapGet (CacheManager.set now key v s).cache key =
      some { data := v, timestamp := now, lastAccessed := now } ∧
    (kmin ≠ key → mapGet (CacheManager.set now key v s).cache kmin = none) ∧
    (∀ k2, k2 ≠ key → k2 ≠ kmin →
      mapGet (CacheManager.set now key v s).cache k2 = mapGet s.cache k2) := by
  have hc := set_enabled_cache now key v s hen
  rw [if_pos hfull, removeLRU_unique now s.cache kmin imin hm hstrict hle hne]
    at hc
  refine ⟨?_, fun hkm => ?_, fun k2 h2k h2m => ?_⟩
  · rw [hc]
    exact mapGet_mapSet_self _ _ _
  · rw [hc, mapGet_mapSet_ne _ _ _ _ hkm, mapGet_mapDelete_self]
  · rw [hc, mapGet_mapSet_ne _ _ _ _ h2k, mapGet_mapDelete_ne _ _ _ h2m]

/-- C2 counterexample: at capacity (`maxSize = 2`) with `"b"` already
present, `set("b", 9)` still evicts the least-recently-used entry `"a"`,
contradicting the claim that an overwrite of a present key evicts nothing. -/
theorem C2_counterexample :
    mapGet c2state.cache "b" =
      some { data := 2, timestamp := 1, lastAccessed := 1 } ∧
    (c2state.cache.length : Int) ≥ c2state.config.maxSize ∧
    mapGet (CacheManager.set 2 "b" (9 : Nat) c2state).cache "a" = none := by
  refine ⟨by decide, by decide, by decide⟩

/-- C2 witness: the specification's own walkthrough, via the amended
theorem: with `maxSize = 2` after `set("a",1)`, `set("b",2)`, `get("a")`,
the call `set("c",3)` evicts exactly `"b"` and keeps `"a"` untouched. -/
theorem C2_witness :
    mapGet (CacheManager.set 3 "c" (3 : Nat) c2exMid).cache "c" =
      some { data := 3, timestamp := 3, lastAccessed := 3 } ∧
    mapGet (CacheManager.set 3 "c" (3 : Nat) c2exMid).cache "b" = none ∧
    mapGet (CacheManager.set 3 "c" (3 : Nat) c2exMid).cache "a" =
      some { data := 1, timestamp := 0, lastAccessed := 2 } :=
  ⟨(C2_set_lru_eviction 3 "c" 3 c2exMid "b"
      { data := 2, timestamp := 1, lastAccessed := 1 } (by decide) (by decide)
      (by decide) (by decide) (by decide) (by decide)).1,
   (C2_set_lru_eviction 3 "c" 3 c2exMid "b"
      { data := 2, timestamp := 1, lastAccessed := 1 } (by decide) (by decide)
      (by decide) (by decide) (by decide) (by decide)).2.1 (by decide),
   by
    rw [(C2_set_lru_eviction 3 "c" 3 c2exMid "b"
      { data := 2, timestamp := 1, lastAccessed := 1 } (by decide) (by decide)
      (by decide) (by decide) (by decide) (by decide)).2.2 "a" (by decide)
      (by decide)]
    decide⟩


/-! ## Invariant preservation along operation traces -/

theorem not_any_not_mem_keys {β : Type} (m : List (String × β)) (k : String)
    (h : ¬ m.any (fun p => p.1 == k) = true) : k ∉ m.map Prod.fst :=
  fun hmem => h (mem_keys_any m k hmem)

theorem mem_mapSet {β : Type} (m : List (String × β)) (k : String) (v : β)
    (e : String × β) (he : e ∈ mapSet m k v) : e ∈ m ∨ e = (k, v) := by
  unfold mapSet at he
  by_cases ha : m.any (fun p => p.1 == k) = true
  · rw [if_pos ha] at he
    rcases List.mem_map.mp he with ⟨p, hp, hfe⟩
    by_cases hpk : (p.1 == k) = true
    · rw [if_pos hpk] at hfe
      exact Or.inr hfe.symm
    · rw [if_neg hpk] at hfe
      exact Or.inl (hfe ▸ hp)
  · rw [if_neg ha] at he
    rcases List.mem_append.mp he with hm | hone
    · exact Or.inl hm
    · exact Or.inr (List.mem_singleton.mp hone)

theorem mem_keys_mapSet {β : Type} (m : List (String × β)) (k : String) (v : β)
    (x : String) (hx : x ∈ (mapSet m k v).map Prod.fst) :
    x ∈ m.map Prod.fst ∨ x = k := by
  rw [map_fst_mapSet] at hx
  by_cases ha : m.any (fun p => p.1 == k) = true
  · rw [if_pos ha] at hx
    exact Or.inl hx
  · rw [if_neg ha] at hx
    rcases List.mem_append.mp hx with hm | hone
    · exact Or.inl hm
    · exact Or.inr (List.mem_singleton.mp hone)

theorem nodup_keys_mapSet {β : Type} (m : List (String × β)) (k : String)
    (v : β) (h : (m.map Prod.fst).Nodup) :
    ((mapSet m k v).map Prod.fst).Nodup := by
  rw [map_fst_mapSet]
  by_cases ha : m.any (fun p => p.1 == k) = true
  · rw [if_pos ha]
    exact h
  · rw [if_neg ha]
    have hk : k ∉ m.map Prod.fst := not_any_not_mem_keys m k ha
    simp [List.nodup_append, h, hk]

theorem mapGet_some_any {β : Type} (m : List (String × β)) (k : String)
    (item : β) (h : mapGet m k = some item) :
    m.any (fun p => p.1 == k) = true ∧ (k, item) ∈ m := by
  unfold mapGet at h
  cases hf : m.find? (fun p => p.1 == k) with
  | none => rw [hf] at h; cases h
  | some p =>
    rw [hf] at h
    have hp2 : p.2 = item := by simpa using h
    have hpk : (p.1 == k) = true :=
      List.find?_some (p := fun (q : String × β) => q.1 == k) hf
    have hpk2 : p.1 = k := by simpa using hpk
    have hpm : p ∈ m := List.mem_of_find?_eq_some hf
    constructor
    · exact List.any_eq_true.mpr ⟨p, hpm, hpk⟩
    · have : p = (k, item) := by
        cases p
        simp only [Prod.mk.injEq]
        exact ⟨hpk2, hp2⟩
      exact this ▸ hpm

/-- Effect of one trace operation on the well-formedness invariant: the
configuration is untouched, keys stay duplicate-free and nonempty, every
entry's `lastAccessed` stays below the clock, and the size stays within
`maxSize` (which requires `maxSize ≥ 1`). -/
theorem applyOp_preserves {α : Type} (cfg : CacheConfigR)
    (hmax : 1 ≤ cfg.maxSize) (op : CacheOp α) (t : Nat) (s : CacheState α)
    (hcfg : s.config = cfg)
    (hnodup : (s.cache.map Prod.fst).Nodup)
    (hkey : "" ∉ s.cache.map Prod.fst)
    (hla : ∀ e ∈ s.cache, e.2.lastAccessed ≤ t)
    (hlen : (s.cache.length : Int) ≤ cfg.maxSize)
    (ht : t ≤ (opTime op).getD t)
    (hok : opSetKeyNe op) :
    (applyOp op s).config = cfg ∧
    ((applyOp op s).cache.map Prod.fst).Nodup ∧
    "" ∉ (applyOp op s).cache.map Prod.fst ∧
    (∀ e ∈ (applyOp op s).cache, e.2.lastAccessed ≤ (opTime op).getD t) ∧
    ((applyOp op s).cache.length : Int) ≤ cfg.maxSize := by
  have hsub :
      ∀ c2 : List (String × CacheItem α), c2.Sublist s.cache →
        (c2.map Prod.fst).Nodup ∧ "" ∉ c2.map Prod.fst ∧
        (∀ e ∈ c2, e.2.lastAccessed ≤ t) ∧ (c2.length : Int) ≤ cfg.maxSize := by
    intro c2 hc2
    refine ⟨(hc2.map Prod.fst).nodup hnodup,
      fun hmem => hkey ((hc2.map Prod.fst).mem hmem),
      fun e he => hla e (hc2.mem he), ?_⟩
    have := hc2.length_le
    omega
  cases op with
  | get now key =>
    simp only [applyOp, opTime, Option.getD_some] at ht ⊢
    by_cases hen : s.config.enabled = true
    case neg =>
      rw [get_disabled now key s (Bool.not_eq_true _ ▸ hen : s.config.enabled = false)]
      exact ⟨hcfg, hnodup, hkey, fun e he => le_trans (hla e he) ht, hlen⟩
    case pos =>
      cases hm : mapGet s.cache key with
      | none =>
        rw [get_missing now key s hen hm]
        exact ⟨hcfg, hnodup, hkey, fun e he => le_trans (hla e he) ht, hlen⟩
      | some item =>
        rcases lt_or_le s.config.ttl ((now : Int) - (item.timestamp : Int))
          with hexp | hfresh
        · rw [get_expired now key s item hen hm hexp]
          have hd := hsub (mapDelete s.cache key) (mapDelete_sublist _ _)
          exact ⟨hcfg, hd.1, hd.2.1,
            fun e he => le_trans (hd.2.2.1 e he) ht, hd.2.2.2⟩
        · rw [get_hit now key s item hen hm hfresh]
          have hany := (mapGet_some_any s.cache key item hm).1
          refine ⟨hcfg, nodup_keys_mapSet _ _ _ hnodup, ?_, ?_, ?_⟩
          · intro hmem
            rcases mem_keys_mapSet _ _ _ _ hmem with hold | hnew
            · exact hkey hold
            · rcases mapGet_some_any s.cache key item hm with ⟨_, hkm⟩
              apply hkey
              rw [hnew]
              exact List.mem_map_of_mem Prod.fst hkm
          · intro e he
            rcases mem_mapSet _ _ _ _ he with hold | hnew
            · exact le_trans (hla e hold) ht
            · rw [hnew]
          · rw [length_mapSet, if_pos hany]
            exact hlen
  | set now key v =>
    simp only [applyOp, opTime, Option.getD_some] at ht ⊢
    by_cases hen : s.config.enabled = true
    case neg =>
      rw [set_disabled now key v s (Bool.not_eq_true _ ▸ hen : s.config.enabled = false)]
      exact ⟨hcfg, hnodup, hkey, fun e he => le_trans (hla e he) ht, hlen⟩
    case pos =>
        have hcache := set_enabled_cache now key v s hen
        have hcfg2 := set_config now key v s
        set c :=
          (if (s.cache.length : Int) ≥ s.config.maxSize then
            CacheManager.removeLRU now s.cache
           else s.cache) with hc
        have hcsub : c.Sublist s.cache := by
          rw [hc]
          by_cases hfull : (s.cache.length : Int) ≥ s.config.maxSize
          · rw [if_pos hfull]
            exact removeLRU_sublist now s.cache
          · rw [if_neg hfull]
        have hcw := hsub c hcsub
        have hclen : (c.length : Int) + 1 ≤ cfg.maxSize := by
          rw [hc]
          by_cases hfull : (s.cache.length : Int) ≥ s.config.maxSize
          · rw [if_pos hfull]
            have hne2 : s.cache ≠ [] := by
              intro h0
              rw [h0] at hfull
              simp only [List.length_nil, Nat.cast_zero, ge_iff_le, hcfg] at hfull
              omega
            have := removeLRU_progress now s.cache hne2 (fun e he => le_trans (hla e he) ht) hkey
            omega
          · rw [if_neg hfull]
            rw [hcfg] at hfull
            omega
        refine ⟨by rw [hcfg2, hcfg], ?_, ?_, ?_, ?_⟩
        · rw [hcache]
          exact nodup_keys_mapSet _ _ _ hcw.1
        · rw [hcache]
          intro hmem
          rcases mem_keys_mapSet _ _ _ _ hmem with hold | hnew
          · exact hcw.2.1 hold
          · exact hok hnew.symm
        · rw [hcache]
          intro e he
          rcases mem_mapSet _ _ _ _ he with hold | hnew
          · exact le_trans (hcw.2.2.1 e hold) ht
          · rw [hnew]
        · rw [hcache, length_mapSet]
          by_cases hany : c.any (fun p => p.1 == key) = true
          · rw [if_pos hany]
            omega
          · rw [if_neg hany]
            push_cast
            omega
  | remove key =>
    simp only [applyOp, opTime, Option.getD_none]
    unfold CacheManager.remove
    by_cases hany : s.cache.any (fun p => p.1 == key) = true
    · rw [if_pos hany]
      have hd := hsub (mapDelete s.cache key) (mapDelete_sublist _ _)
      exact ⟨hcfg, hd.1, hd.2.1, hd.2.2.1, hd.2.2.2⟩
    · rw [if_neg hany]
      exact ⟨hcfg, hnodup, hkey, hla, hlen⟩
  | clear =>
    simp only [applyOp, opTime, Option.getD_none]
    unfold CacheManager.clear
    refine ⟨hcfg, by simp, by simp, by simp, by simp; omega⟩
  | invalidateByPath p =>
    simp only [applyOp, opTime, Option.getD_none]
    by_cases hen : s.config.enabled = true
    case neg =>
      have henf : s.config.enabled = false := Bool.not_eq_true _ ▸ hen
      have hstate : CacheManager.invalidateByPath p s = s := by
        unfold CacheManager.invalidateByPath
        rw [henf]
        rfl
      rw [hstate]
      exact ⟨hcfg, hnodup, hkey, hla, hlen⟩
    case pos =>
      have hfil := invalidateByPath_filter p s hen
      have hsubl : (CacheManager.invalidateByPath p s).cache.Sublist s.cache := by
        rw [hfil]
        exact List.filter_sublist s.cache
      have hd := hsub _ hsubl
      refine ⟨?_, hd.1, hd.2.1, hd.2.2.1, hd.2.2.2⟩
      have hcfgeq : (CacheManager.invalidateByPath p s).config = s.config := by
        unfold CacheManager.invalidateByPath
        split <;> rfl
      rw [hcfgeq]
      exact hcfg
  | invalidateCollection p =>
    simp only [applyOp, opTime, Option.getD_none]
    by_cases hen : s.config.enabled = true
    case neg =>
      have henf : s.config.enabled = false := Bool.not_eq_true _ ▸ hen
      have hstate : CacheManager.invalidateCollection p s = s := by
        unfold CacheManager.invalidateCollection
        rw [henf]
        rfl
      rw [hstate]
      exact ⟨hcfg, hnodup, hkey, hla, hlen⟩
    case pos =>
      have hfil := invalidateCollection_filter p s hen
      have hsubl : (CacheManager.invalidateCollection p s).cache.Sublist s.cache := by
        rw [hfil]
        exact List.filter_sublist s.cache
      have hd := hsub _ hsubl
      refine ⟨?_, hd.1, hd.2.1, hd.2.2.1, hd.2.2.2⟩
      have hcfgeq : (CacheManager.invalidateCollection p s).config = s.config := by
        unfold CacheManager.invalidateCollection
        split <;> rfl
      rw [hcfgeq]
      exact hcfg


/-- The well-formedness invariant survives a whole trace; in particular the
size bound does. -/
theorem runOps_inv {α : Type} (cfg : CacheConfigR) (hmax : 1 ≤ cfg.maxSize) :
    ∀ (ops : List (CacheOp α)) (t : Nat) (s : CacheState α),
      s.config = cfg →
      (s.cache.map Prod.fst).Nodup →
      "" ∉ s.cache.map Prod.fst →
      (∀ e ∈ s.cache, e.2.lastAccessed ≤ t) →
      (s.cache.length : Int) ≤ cfg.maxSize →
      timeOk t ops = true →
      setKeysOk ops = true →
      ((runOps ops s).cache.length : Int) ≤ cfg.maxSize := by
  intro ops
  induction ops with
  | nil =>
    intro t s _ _ _ _ hlen _ _
    exact hlen
  | cons op rest ih =>
    intro t s hcfg hnodup hkey hla hlen htime hkeys
    have htsplit :
        t ≤ (opTime op).getD t ∧ timeOk ((opTime op).getD t) rest = true := by
      unfold timeOk at htime
      cases hu : opTime (α := α) op with
      | none =>
        rw [hu] at htime
        exact ⟨le_rfl, by simpa using htime⟩
      | some u =>
        rw [hu] at htime
        simp only [Bool.and_eq_true, decide_eq_true_eq] at htime
        exact ⟨by simpa using htime.1, by simpa using htime.2⟩
    have hkok : opSetKeyNe op ∧ setKeysOk rest = true := by
      cases op with
      | set now2 k2 v2 =>
        unfold setKeysOk at hkeys
        simp only [Bool.and_eq_true, bne_iff_ne, ne_eq] at hkeys
        exact ⟨hkeys.1, hkeys.2⟩
      | get now2 k2 => exact ⟨trivial, by simpa [setKeysOk] using hkeys⟩
      | remove k2 => exact ⟨trivial, by simpa [setKeysOk] using hkeys⟩
      | clear => exact ⟨trivial, by simpa [setKeysOk] using hkeys⟩
      | invalidateByPath p2 => exact ⟨trivial, by simpa [setKeysOk] using hkeys⟩
      | invalidateCollection p2 =>
        exact ⟨trivial, by simpa [setKeysOk] using hkeys⟩
    have hstep := applyOp_preserves cfg hmax op t s hcfg hnodup hkey hla hlen
      htsplit.1 hkok.1
    simp only [runOps]
    exact ih ((opTime op).getD t) (applyOp op s) hstep.1 hstep.2.1 hstep.2.2.1
      hstep.2.2.2.1 hstep.2.2.2.2 htsplit.2 hkok.2

/-- C4 corrected: for every configuration with `maxEntries ≥ 1` and every
finite sequence of get/set/remove/clear/invalidate operations starting from
an empty store, with nondecreasing clock readings and no `set` under the
empty-string key, the size reported by `stats()` is at most `maxEntries`
after the whole trace — hence, being closed under prefixes, immediately
after each `set`. -/
theorem C4_size_bound {α : Type} (cfg : CacheConfigR) (ops : List (CacheOp α))
    (hmax : 1 ≤ cfg.maxSize)
    (htime : timeOk 0 ops = true)
    (hkeys : setKeysOk ops = true) :
    ((runOps ops (initState cfg)).cache.length : Int) ≤ cfg.maxSize ∧
    ∀ t : Nat,
      ((CacheManager.getStats t (runOps ops (initState cfg))).size : Int) ≤
        cfg.maxSize := by
  have h := runOps_inv cfg hmax ops 0 (initState cfg) rfl (by simp [initState])
    (by simp [initState]) (by simp [initState])
    (by
      simp only [initState, List.length_nil, Nat.cast_zero]
      omega)
    htime hkeys
  exact ⟨h, fun t => h⟩

/-- C4 counterexample: the bound fails as claimed.  With `maxEntries = 0`
one `set` leaves `stats().size = 1 > 0`; and with `maxEntries = 1` a first
`set` under the key `""` followed by a second `set` leaves
`stats().size = 2 > 1`, because `removeLRU`'s final JS truthiness test
`if (lruKey)` refuses to delete the empty-string key. -/
theorem C4_counterexample :
    (((CacheManager.getStats 0
        (runOps [CacheOp.set 0 "k" (5 : Nat)]
          (initState (exCfg 300000 0 true)))).size : Int) >
      (exCfg 300000 0 true).maxSize) ∧
    (((CacheManager.getStats 1
        (runOps [CacheOp.set 0 "" (1 : Nat), CacheOp.set 1 "x" (2 : Nat)]
          (initState (exCfg 300000 1 true)))).size : Int) >
      (exCfg 300000 1 true).maxSize) := by
  refine ⟨by decide, by decide⟩

/-- C4 witness: the size bound along the specification's LRU walkthrough. -/
theorem C4_witness :
    ((runOps
        [CacheOp.set 0 "a" (1 : Nat), CacheOp.set 1 "b" 2, CacheOp.get 2 "a",
         CacheOp.set 3 "c" 3]
        (initState (exCfg 300000 2 true))).cache.length : Int) ≤
      (exCfg 300000 2 true).maxSize ∧
    ((CacheManager.getStats 3
        (runOps
          [CacheOp.set 0 "a" (1 : Nat), CacheOp.set 1 "b" 2, CacheOp.get 2 "a",
           CacheOp.set 3 "c" 3]
          (initState (exCfg 300000 2 true)))).size : Int) ≤
      (exCfg 300000 2 true).maxSize :=
  ⟨(C4_size_bound (exCfg 300000 2 true) _ (by decide) (by decide) (by decide)).1,
   (C4_size_bound (exCfg 300000 2 true) _ (by decide) (by decide)
     (by decide)).2 3⟩


/-! ## Key-prefix lemmas and configuration framing -/

theorem isPrefixOf_self_append : ∀ (l r : List Char), l.isPrefixOf (l ++ r) = true
  | [], _ => by simp [List.isPrefixOf]
  | a :: as, r => by
    simp only [List.cons_append, List.isPrefixOf]
    simp [isPrefixOf_self_append as r]

theorem strStartsWith_append (p r : String) :
    strStartsWith (p ++ r) p = true := by
  unfold strStartsWith
  rw [String.data_append]
  exact isPrefixOf_self_append p.data r.data

theorem createKey_startsWith (path : String) (options : List (String × JsValue)) :
    strStartsWith (CacheManager.createKey path options) (path ++ ":") = true := by
  unfold CacheManager.createKey
  exact strStartsWith_append (path ++ ":") _

theorem remove_config {α : Type} (key : String) (s : CacheState α) :
    (CacheManager.remove key s).config = s.config := by
  unfold CacheManager.remove
  split <;> rfl

theorem invalidateByPath_config {α : Type} (p : String) (s : CacheState α) :
    (CacheManager.invalidateByPath p s).config = s.config := by
  unfold CacheManager.invalidateByPath
  split <;> rfl

theorem invalidateCollection_config {α : Type} (p : String) (s : CacheState α) :
    (CacheManager.invalidateCollection p s).config = s.config := by
  unfold CacheManager.invalidateCollection
  split <;> rfl


/-- C1 corrected: of the three write operations only `deleteData` performs
cache invalidation.  After a successful delete it removes the document key
and invalidates the collection synchronously before returning its result,
so a subsequent cached read of any key under the collection (in particular
any `createKey path opts` key) misses; `createData` and `updateData`
perform no cache call at all, leaving the cache state exactly as it was. -/
theorem C1_write_invalidation {α : Type} (path docId : String)
    (s : CacheState α) (hpath : path ≠ "") (hdoc : docId ≠ "") :
    (createDataCacheEffect s = s) ∧
    (updateDataCacheEffect s = s) ∧
    ((deleteData (α := α) path docId none s).1 =
      { data := none, error := none, loading := false }) ∧
    (s.config.enabled = true →
      ∀ key, CacheManager.keyMatchesCollection path key = true →
        mapGet (deleteData (α := α) path docId none s).2.cache key = none) ∧
    (∀ (now : Nat) (opts : List (String × JsValue)),
      (CacheManager.get now (CacheManager.createKey path opts)
        (deleteData (α := α) path docId none s).2).1 = none) := by
  have hred :
      deleteData (α := α) path docId none s =
        ({ data := none, error := none, loading := false },
         CacheManager.invalidateCollection path
           (CacheManager.remove
             (CacheManager.createKey path [("docId", JsValue.str docId)]) s)) := by
    unfold deleteData
    rw [if_neg hpath, if_neg hdoc]
  set s1 :=
    CacheManager.remove
      (CacheManager.createKey path [("docId", JsValue.str docId)]) s with hs1
  have hcfg1 : s1.config = s.config := remove_config _ s
  have hcfg2 :
      (CacheManager.invalidateCollection path s1).config = s.config := by
    rw [invalidateCollection_config, hcfg1]
  have hmatchGone :
      s.config.enabled = true →
      ∀ key, CacheManager.keyMatchesCollection path key = true →
        mapGet (CacheManager.invalidateCollection path s1).cache key = none := by
    intro hen key hmatch
    have hen1 : s1.config.enabled = true := by rw [hcfg1]; exact hen
    rw [invalidateCollection_filter path s1 hen1]
    apply mapGet_filter_out
    intro e _ hekey
    rw [hekey, hmatch]
    rfl
  refine ⟨rfl, rfl, by rw [hred], fun hen key hmatch => ?_, fun now opts => ?_⟩
  · rw [hred]
    exact hmatchGone hen key hmatch
  · rw [hred]
    have hkeymatch :
        CacheManager.keyMatchesCollection path
          (CacheManager.createKey path opts) = true := by
      unfold CacheManager.keyMatchesCollection
      rw [createKey_startsWith path opts]
      rfl
    by_cases hen : s.config.enabled = true
    case pos =>
      have hmiss :=
        hmatchGone hen (CacheManager.createKey path opts) hkeymatch
      rw [get_missing now (CacheManager.createKey path opts)
        (CacheManager.invalidateCollection path s1)
        (by rw [hcfg2]; exact hen) hmiss]
    case neg =>
      have henf : (CacheManager.invalidateCollection path s1).config.enabled = false := by
        rw [hcfg2]
        exact Bool.not_eq_true _ ▸ hen
      rw [get_disabled now (CacheManager.createKey path opts)
        (CacheManager.invalidateCollection path s1) henf]


/-- C1 counterexample: the claim fails for `updateData` (and `createData`).
With document `users/u1` cached as 7 from before the write, a successful
`updateData` leaves the cache untouched, and the very next cached read of
the same selector returns the pre-write value 7 even though the upstream
now holds 99. -/
theorem C1_counterexample :
    updateDataCacheEffect c1state = c1state ∧
    (getData 1 "users" "u1" true none (fun _ => true) (DocFetch.ok 99)
      (updateDataCacheEffect c1state)).1.data = some 7 := by
  refine ⟨rfl, by decide⟩

/-- C1 witness: a concrete successful `deleteData` on `users/u1` returns
the null result and a following cached read of the freshly deleted
document's selector misses. -/
theorem C1_witness :
    (deleteData (α := Nat) "users" "u1" none c1state).1 =
      { data := none, error := none, loading := false } ∧
    (CacheManager.get 1
      (CacheManager.createKey "users" [("docId", JsValue.str "u1")])
      (deleteData (α := Nat) "users" "u1" none c1state).2).1 = none :=
  ⟨(C1_write_invalidation "users" "u1" c1state (by decide) (by decide)).2.2.1,
   (C1_write_invalidation "users" "u1" c1state (by decide) (by decide)).2.2.2.2
     1 [("docId", JsValue.str "u1")]⟩

/-- C8: in both listener modes the snapshot handler invalidates the
subscribed path strictly before invoking `onNext`: the cache state in
effect when the callback runs is exactly `invalidateByPath path` of the
pre-event state, the payload is delivered unchanged, and a read from
inside the callback of any key under the subscribed path misses. -/
theorem C8_invalidate_before_deliver {α β : Type} (path : String)
    (snapshotData : Option β) (docs : List β) (s : CacheState α) :
    ((documentSnapshotHandler path snapshotData s).1 =
      CacheManager.invalidateByPath path s) ∧
    ((documentSnapshotHandler path snapshotData s).2 = snapshotData) ∧
    ((collectionSnapshotHandler path docs s).1 =
      CacheManager.invalidateByPath path s) ∧
    ((collectionSnapshotHandler path docs s).2 = docs) ∧
    (∀ (now : Nat) (key : String),
      CacheManager.keyMatchesPath path key = true →
      (CacheManager.get now key
        (documentSnapshotHandler path snapshotData s).1).1 = none ∧
      (CacheManager.get now key
        (collectionSnapshotHandler path docs s).1).1 = none) := by
  have hmain :
      ∀ (now : Nat) (key : String),
        CacheManager.keyMatchesPath path key = true →
        (CacheManager.get now key (CacheManager.invalidateByPath path s)).1 =
          none := by
    intro now key hmatch
    by_cases hen : s.config.enabled = true
    case pos =>
      have hmiss :
          mapGet (CacheManager.invalidateByPath path s).cache key = none := by
        rw [invalidateByPath_filter path s hen]
        apply mapGet_filter_out
        intro e _ hekey
        rw [hekey, hmatch]
        rfl
      rw [get_missing now key (CacheManager.invalidateByPath path s)
        (by rw [invalidateByPath_config]; exact hen) hmiss]
    case neg =>
      have henf :
          (CacheManager.invalidateByPath path s).config.enabled = false := by
        rw [invalidateByPath_config]
        exact Bool.not_eq_true _ ▸ hen
      rw [get_disabled now key (CacheManager.invalidateByPath path s) henf]
  exact ⟨rfl, rfl, rfl, rfl,
    fun now key hmatch => ⟨hmain now key hmatch, hmain now key hmatch⟩⟩

/-- C8 witness: a concrete document event on path `users` delivers its
payload against the invalidated state; the previously cached `users` query
key misses from inside the callback, in both handler modes. -/
theorem C8_witness :
    (documentSnapshotHandler "users" (some 42) c6state).1 =
      CacheManager.invalidateByPath "users" c6state ∧
    (CacheManager.get 0 "users:\x7b\x7d"
      (documentSnapshotHandler "users" (some (42 : Nat)) (β := Nat) c6state).1).1 =
      none ∧
    (CacheManager.get 0 "users:\x7b\x7d"
      (collectionSnapshotHandler "users" ([42] : List Nat) c6state).1).1 =
      none :=
  ⟨(C8_invalidate_before_deliver "users" (some 42) ([42] : List Nat) c6state).1,
   ((C8_invalidate_before_deliver "users" (some 42) ([42] : List Nat)
      c6state).2.2.2.2 0 "users:\x7b\x7d" (by decide)).1,
   ((C8_invalidate_before_deliver "users" (some 42) ([42] : List Nat)
      c6state).2.2.2.2 0 "users:\x7b\x7d" (by decide)).2⟩

/-- C9 corrected: a cached `getData` that misses and whose upstream fetch
then fails (document missing or the fetch throwing) returns that failure
as its error with `data = null` — never a success — and stores nothing: the
final cache state is the state left by the initial cache lookup, which can
differ from the pre-call state only by that lookup's lazy deletion of an
already-expired entry under the same key. -/
theorem C9_failed_fetch_propagates {α : Type} (now : Nat)
    (path docId : String) (cacheTTL : Option Int) (truthy : α → Bool)
    (fetch : DocFetch α) (s : CacheState α)
    (hpath : path ≠ "") (hdoc : docId ≠ "")
    (hmiss : (CacheManager.get now (docKey path docId) s).1 = none)
    (hfail : ∀ d, fetch ≠ DocFetch.ok d) :
    (getData now path docId true cacheTTL truthy fetch s).1.data = none ∧
    (getData now path docId true cacheTTL truthy fetch s).1.error =
      (match fetch with
       | DocFetch.missing =>
         some (FirestoreHelperError.notFound
           ("Document not found at path: " ++ path ++ "/" ++ docId))
       | DocFetch.threw e => some (handleError e)
       | DocFetch.ok _ => none) ∧
    (getData now path docId true cacheTTL truthy fetch s).2 =
      (CacheManager.get now (docKey path docId) s).2 := by
  have hred :
      getData now path docId true cacheTTL truthy fetch s =
        getDataFetchDoc now path docId (some (docKey path docId)) cacheTTL
          fetch (CacheManager.get now (docKey path docId) s).2 := by
    unfold getData
    rw [if_neg hpath]
    simp only [if_true]
    rw [hmiss]
  rw [hred]
  cases fetch with
  | ok d => exact absurd rfl (hfail d)
  | missing => exact ⟨rfl, rfl, rfl⟩
  | threw e => exact ⟨rfl, rfl, rfl⟩

/-- C9 counterexample: with the entry for the selector expired (ttl 1000,
written at 0, call at 2000), a failing fetch propagates the not-found
error, but the cache state after the call is not the state before it: the
expired entry was lazily deleted by the initial lookup. -/
theorem C9_counterexample :
    (getData 2000 "users" "u1" true none (fun _ => true) DocFetch.missing
      c9state).1.error =
      some (FirestoreHelperError.notFound
        "Document not found at path: users/u1") ∧
    (getData 2000 "users" "u1" true none (fun _ => true)
      (DocFetch.missing : DocFetch Nat) c9state).2.cache = [] ∧
    c9state.cache ≠ [] := by
  refine ⟨by decide, by decide, by decide⟩

/-- C9 witness: a clean miss (empty cache) followed by a not-found fetch:
null data, the not-found error, and no change to the cache. -/
theorem C9_witness :
    (getData 5 "users" "u1" true none (fun _ => true)
      (DocFetch.missing : DocFetch Nat)
      (initState (exCfg 1000 100 true))).1.data = none ∧
    (getData 5 "users" "u1" true none (fun _ => true)
      (DocFetch.missing : DocFetch Nat)
      (initState (exCfg 1000 100 true))).2 =
      (CacheManager.get 5 (docKey "users" "u1")
        (initState (exCfg 1000 100 true))).2 :=
  ⟨(C9_failed_fetch_propagates 5 "users" "u1" none (fun _ => true)
      DocFetch.missing (initState (exCfg 1000 100 true)) (by decide) (by decide)
      (by decide) (fun d h => DocFetch.noConfusion h)).1,
   (C9_failed_fetch_propagates 5 "users" "u1" none (fun _ => true)
      DocFetch.missing (initState (exCfg 1000 100 true)) (by decide) (by decide)
      (by decide) (fun d h => DocFetch.noConfusion h)).2.2⟩


/-! ## Order properties of the key comparator and of the sort -/

theorem charListLe_total : ∀ a b : List Char,
    charListLe a b = true ∨ charListLe b a = true := by
  intro a
  induction a with
  | nil => intro b; exact Or.inl rfl
  | cons x xs ih =>
    intro b
    cases b with
    | nil => exact Or.inr rfl
    | cons y ys =>
      unfold charListLe
      rcases lt_trichotomy x y with hxy | hxy | hxy
      · apply Or.inl
        rw [if_pos hxy]
      · subst hxy
        simp only [if_neg (lt_irrefl x)]
        exact ih ys
      · apply Or.inr
        rw [if_pos hxy]

theorem charListLe_trans : ∀ a b c : List Char,
    charListLe a b = true → charListLe b c = true → charListLe a c = true := by
  intro a
  induction a with
  | nil => intro b c _ _; rfl
  | cons x xs ih =>
    intro b c hab hbc
    cases b with
    | nil => cases hab
    | cons y ys =>
      cases c with
      | nil => cases hbc
      | cons z zs =>
        unfold charListLe at hab hbc ⊢
        by_cases hxy : x < y
        · rw [if_pos hxy] at hab
          by_cases hyz : y < z
          · rw [if_pos (lt_trans hxy hyz)]
          · by_cases hzy : z < y
            · rw [if_neg hyz, if_pos hzy] at hbc
              cases hbc
            · have hyzeq : y = z := le_antisymm (not_lt.mp hzy) (not_lt.mp hyz)
              subst hyzeq
              rw [if_pos hxy]
        · by_cases hyx : y < x
          · rw [if_neg hxy, if_pos hyx] at hab
            cases hab
          · have hxyeq : x = y := le_antisymm (not_lt.mp hyx) (not_lt.mp hxy)
            subst hxyeq
            rw [if_neg (lt_irrefl x), if_neg (lt_irrefl x)] at hab
            by_cases hyz : x < z
            · rw [if_pos hyz]
            · by_cases hzy : z < x
              · rw [if_neg hyz, if_pos hzy] at hbc
                cases hbc
              · rw [if_neg hyz, if_neg hzy] at hbc ⊢
                exact ih ys zs hab hbc

theorem charListLe_antisymm : ∀ a b : List Char,
    charListLe a b = true → charListLe b a = true → a = b := by
  intro a
  induction a with
  | nil =>
    intro b _ hba
    cases b with
    | nil => rfl
    | cons y ys => cases hba
  | cons x xs ih =>
    intro b hab hba
    cases b with
    | nil => cases hab
    | cons y ys =>
      unfold charListLe at hab hba
      by_cases hxy : x < y
      · rw [if_neg (lt_asymm hxy), if_pos hxy] at hba
        cases hba
      · by_cases hyx : y < x
        · rw [if_neg hxy, if_pos hyx] at hab
          cases hab
        · have hxyeq : x = y := le_antisymm (not_lt.mp hyx) (not_lt.mp hxy)
          subst hxyeq
          rw [if_neg (lt_irrefl x), if_neg (lt_irrefl x)] at hab hba
          rw [ih ys hab hba]

theorem strLe_total (a b : String) : strLe a b = true ∨ strLe b a = true :=
  charListLe_total a.data b.data

theorem strLe_trans {a b c : String} (hab : strLe a b = true)
    (hbc : strLe b c = true) : strLe a c = true :=
  charListLe_trans a.data b.data c.data hab hbc

theorem strLe_antisymm {a b : String} (hab : strLe a b = true)
    (hba : strLe b a = true) : a = b := by
  cases a with
  | mk da =>
    cases b with
    | mk db =>
      have : da = db := charListLe_antisymm da db hab hba
      rw [this]

theorem perm_orderedInsertB {α : Type} (le : α → α → Bool) (a : α) :
    ∀ l : List α, (orderedInsertB le a l).Perm (a :: l) := by
  intro l
  induction l with
  | nil => exact List.Perm.refl _
  | cons b rest ih =>
    unfold orderedInsertB
    by_cases hle : le a b = true
    · rw [if_pos hle]
    · rw [if_neg hle]
      exact (ih.cons b).trans (List.Perm.swap a b rest)

theorem perm_insertionSortB {α : Type} (le : α → α → Bool) :
    ∀ l : List α, (insertionSortB le l).Perm l := by
  intro l
  induction l with
  | nil => exact List.Perm.refl _
  | cons b rest ih =>
    unfold insertionSortB
    exact (perm_orderedInsertB le b (insertionSortB le rest)).trans (ih.cons b)

theorem mem_orderedInsertB {α : Type} (le : α → α → Bool) (a x : α)
    (l : List α) (hx : x ∈ orderedInsertB le a l) : x = a ∨ x ∈ l := by
  have := (perm_orderedInsertB le a l).subset hx
  exact List.mem_cons.mp this

theorem pairwise_orderedInsertB {α : Type} (le : α → α → Bool)
    (htot : ∀ a b, le a b = true ∨ le b a = true)
    (htrans : ∀ a b c, le a b = true → le b c = true → le a c = true)
    (a : α) :
    ∀ l : List α, l.Pairwise (fun x y => le x y = true) →
      (orderedInsertB le a l).Pairwise (fun x y => le x y = true) := by
  intro l
  induction l with
  | nil => intro _; exact List.pairwise_singleton _ a
  | cons b rest ih =>
    intro hp
    rcases List.pairwise_cons.mp hp with ⟨hb, hrest⟩
    unfold orderedInsertB
    by_cases hle : le a b = true
    · rw [if_pos hle]
      apply List.pairwise_cons.mpr
      refine ⟨?_, hp⟩
      intro x hx
      rcases List.mem_cons.mp hx with rfl | hxr
      · exact hle
      · exact htrans a b x hle (hb x hxr)
    · rw [if_neg hle]
      apply List.pairwise_cons.mpr
      refine ⟨?_, ih hrest⟩
      intro x hx
      rcases mem_orderedInsertB le a x rest hx with rfl | hxr
      · rcases htot x b with h | h
        · exact absurd h hle
        · exact h
      · exact hb x hxr

theorem pairwise_insertionSortB {α : Type} (le : α → α → Bool)
    (htot : ∀ a b, le a b = true ∨ le b a = true)
    (htrans : ∀ a b c, le a b = true → le b c = true → le a c = true) :
    ∀ l : List α,
      (insertionSortB le l).Pairwise (fun x y => le x y = true) := by
  intro l
  induction l with
  | nil => exact List.Pairwise.nil
  | cons b rest ih =>
    unfold insertionSortB
    exact pairwise_orderedInsertB le htot htrans b (insertionSortB le rest) ih


/-! ## Canonical form of createKey -/

theorem canonSelect_fst (o : List (String × JsValue)) (k : String)
    (p : String × JsValue) (h : CacheManager.canonSelect o k = some p) :
    p.1 = k := by
  unfold CacheManager.canonSelect at h
  cases ho : CacheManager.objLookup o k with
  | none =>
    simp only [ho] at h
    exact Option.noConfusion h
  | some v =>
    simp only [ho] at h
    by_cases hu : v.isUndef = true
    · rw [if_pos hu] at h
      cases h
    · rw [if_neg hu] at h
      cases h
      rfl

theorem foldl_canonAcc (o : List (String × JsValue)) :
    ∀ (ks : List String) (acc : List (String × JsValue)),
      ks.foldl
        (fun acc k =>
          match CacheManager.objLookup o k with
          | some v => if v.isUndef then acc else acc ++ [(k, v)]
          | none => acc) acc =
        acc ++ ks.filterMap (CacheManager.canonSelect o) := by
  intro ks
  induction ks with
  | nil => intro acc; simp
  | cons k rest ih =>
    intro acc
    rw [List.foldl_cons]
    cases ho : CacheManager.objLookup o k with
    | none =>
      have hsel : CacheManager.canonSelect o k = none := by
        unfold CacheManager.canonSelect
        simp only [ho]
      rw [List.filterMap_cons_none hsel]
      simpa [ho] using ih acc
    | some v =>
      by_cases hu : v.isUndef = true
      · have hsel : CacheManager.canonSelect o k = none := by
          unfold CacheManager.canonSelect
          simp only [ho]
          rw [if_pos hu]
        rw [List.filterMap_cons_none hsel]
        simpa [ho, hu] using ih acc
      · have hsel : CacheManager.canonSelect o k = some (k, v) := by
          unfold CacheManager.canonSelect
          simp only [ho]
          rw [if_neg hu]
        rw [List.filterMap_cons_some hsel]
        have step := ih (acc ++ [(k, v)])
        simpa [ho, hu, List.append_assoc] using step

theorem canonPairs_eq (o : List (String × JsValue)) :
    CacheManager.canonPairs o =
      (insertionSortB strLe (o.map Prod.fst)).filterMap
        (CacheManager.canonSelect o) := by
  unfold CacheManager.canonPairs
  simpa using foldl_canonAcc o (insertionSortB strLe (o.map Prod.fst)) []

theorem map_fst_filterMap_canon (o : List (String × JsValue)) :
    ∀ l : List String,
      (l.filterMap (CacheManager.canonSelect o)).map Prod.fst =
        l.filter (fun k => (CacheManager.canonSelect o k).isSome) := by
  intro l
  induction l with
  | nil => rfl
  | cons k rest ih =>
    cases hs : CacheManager.canonSelect o k with
    | none =>
      rw [List.filterMap_cons_none hs, List.filter_cons]
      simp only [hs, Option.isSome_none, Bool.false_eq_true, if_false]
      exact ih
    | some p =>
      rw [List.filterMap_cons_some hs, List.filter_cons]
      simp only [hs, Option.isSome_some, if_true, List.map_cons]
      rw [canonSelect_fst o k p hs, ih]

theorem pairwise_filterMap_canon (o : List (String × JsValue)) :
    ∀ l : List String,
      l.Pairwise (fun x y => strLe x y = true) →
      (l.filterMap (CacheManager.canonSelect o)).Pairwise
        (fun a b => strLe a.1 b.1 = true) := by
  intro l
  induction l with
  | nil => intro _; exact List.Pairwise.nil
  | cons k rest ih =>
    intro hp
    rcases List.pairwise_cons.mp hp with ⟨hk, hrest⟩
    cases hs : CacheManager.canonSelect o k with
    | none =>
      rw [List.filterMap_cons_none hs]
      exact ih hrest
    | some p =>
      rw [List.filterMap_cons_some hs]
      apply List.pairwise_cons.mpr
      refine ⟨?_, ih hrest⟩
      intro b hb
      rcases List.mem_filterMap.mp hb with ⟨a, ha, hba⟩
      rw [canonSelect_fst o k p hs, canonSelect_fst o a b hba]
      exact hk a ha

theorem filterMap_congr_mem {α β : Type} {f g : α → Option β} :
    ∀ l : List α, (∀ x ∈ l, f x = g x) → l.filterMap f = l.filterMap g := by
  intro l
  induction l with
  | nil => intro _; rfl
  | cons a rest ih =>
    intro h
    rw [List.filterMap_cons, List.filterMap_cons, h a (List.mem_cons_self a rest),
      ih (fun x hx => h x (List.mem_cons_of_mem a hx))]

theorem objLookup_head (k : String) (v : JsValue)
    (rest : List (String × JsValue)) :
    CacheManager.objLookup ((k, v) :: rest) k = some v := by
  unfold CacheManager.objLookup
  rw [List.find?_cons_of_pos _ (by simp)]
  rfl

theorem objLookup_tail (k k2 : String) (v : JsValue)
    (rest : List (String × JsValue)) (h : k2 ≠ k) :
    CacheManager.objLookup ((k, v) :: rest) k2 =
      CacheManager.objLookup rest k2 := by
  unfold CacheManager.objLookup
  rw [List.find?_cons_of_neg _ (by simpa using fun hh => h hh.symm)]

theorem filterMap_keys_eq_filter :
    ∀ o : List (String × JsValue), (o.map Prod.fst).Nodup →
      (o.map Prod.fst).filterMap (CacheManager.canonSelect o) =
        o.filter (fun p => !p.2.isUndef) := by
  intro o
  induction o with
  | nil => intro _; rfl
  | cons e rest ih =>
    intro hnd
    rcases e with ⟨k, v⟩
    rw [List.map_cons] at hnd ⊢
    rcases List.nodup_cons.mp hnd with ⟨hk, hnd1⟩
    have htail :
        (rest.map Prod.fst).filterMap
            (CacheManager.canonSelect ((k, v) :: rest)) =
          (rest.map Prod.fst).filterMap (CacheManager.canonSelect rest) := by
      apply filterMap_congr_mem
      intro k2 hk2
      have hne : k2 ≠ k := fun hh => hk (hh ▸ hk2)
      unfold CacheManager.canonSelect
      rw [objLookup_tail k k2 v rest hne]
    have hhead :
        CacheManager.canonSelect ((k, v) :: rest) k =
          if v.isUndef then none else some (k, v) := by
      unfold CacheManager.canonSelect
      rw [objLookup_head]
    by_cases hu : v.isUndef = true
    · rw [List.filterMap_cons_none (by rw [hhead, if_pos hu]), htail, ih hnd1,
        List.filter_cons]
      simp [hu]
    · rw [List.filterMap_cons_some (by rw [hhead, if_neg hu]), htail, ih hnd1,
        List.filter_cons]
      simp [hu]

theorem eq_of_perm_sorted_keys :
    ∀ l1 l2 : List (String × JsValue), l1.Perm l2 →
      l1.Pairwise (fun a b => strLe a.1 b.1 = true) →
      l2.Pairwise (fun a b => strLe a.1 b.1 = true) →
      (l1.map Prod.fst).Nodup →
      l1 = l2 := by
  intro l1
  induction l1 with
  | nil =>
    intro l2 hp _ _ _
    cases l2 with
    | nil => rfl
    | cons b t =>
      have := hp.length_eq
      simp at this
  | cons a t1 ih =>
    intro l2 hp hs1 hs2 hnd
    cases l2 with
    | nil =>
      have := hp.length_eq
      simp at this
    | cons b t2 =>
      rcases List.pairwise_cons.mp hs1 with ⟨ha1, ht1⟩
      rcases List.pairwise_cons.mp hs2 with ⟨hb2, ht2⟩
      rw [List.map_cons] at hnd
      rcases List.nodup_cons.mp hnd with ⟨hafst, hnd1⟩
      have hab : a = b := by
        by_contra hne
        have ha2 : a ∈ b :: t2 := hp.subset (List.mem_cons_self a t1)
        have hb1 : b ∈ a :: t1 := hp.symm.subset (List.mem_cons_self b t2)
        have hat2 : a ∈ t2 := by
          rcases List.mem_cons.mp ha2 with h | h
          · exact absurd h hne
          · exact h
        have hbt1 : b ∈ t1 := by
          rcases List.mem_cons.mp hb1 with h | h
          · exact absurd h.symm hne
          · exact h
        have heq : a.1 = b.1 :=
          strLe_antisymm (ha1 b hbt1) (hb2 a hat2)
        exact hafst (heq ▸ List.mem_map_of_mem Prod.fst hbt1)
      subst hab
      rw [ih t2 hp.cons_inv ht1 ht2 hnd1]

/-- C7: `createKey` is a pure function of `(path, selectors)`, and any two
selector objects equal up to property enumeration order and up to
`undefined`-valued properties produce the identical key string: the path, a
colon, and the serialization of the kept bindings in lexicographic key
order. -/
theorem C7_createKey_order_insensitive (path : String)
    (o1 o2 : List (String × JsValue))
    (h1 : (o1.map Prod.fst).Nodup) (h2 : (o2.map Prod.fst).Nodup)
    (hp : (o1.filter (fun p => !p.2.isUndef)).Perm
      (o2.filter (fun p => !p.2.isUndef))) :
    CacheManager.createKey path o1 = CacheManager.createKey path o2 := by
  have hsortnd1 : (insertionSortB strLe (o1.map Prod.fst)).Nodup :=
    (perm_insertionSortB strLe (o1.map Prod.fst)).nodup_iff.mpr h1
  have hsortnd2 : (insertionSortB strLe (o2.map Prod.fst)).Nodup :=
    (perm_insertionSortB strLe (o2.map Prod.fst)).nodup_iff.mpr h2
  have htrans : ∀ a b c : String,
      strLe a b = true → strLe b c = true → strLe a c = true :=
    fun a b c hab hbc => strLe_trans hab hbc
  have pa :
      ((insertionSortB strLe (o1.map Prod.fst)).filterMap
        (CacheManager.canonSelect o1)).Perm
        (o1.filter (fun p => !p.2.isUndef)) := by
    have h := List.Perm.filterMap (CacheManager.canonSelect o1)
      (perm_insertionSortB strLe (o1.map Prod.fst))
    rw [filterMap_keys_eq_filter o1 h1] at h
    exact h
  have pb :
      ((insertionSortB strLe (o2.map Prod.fst)).filterMap
        (CacheManager.canonSelect o2)).Perm
        (o2.filter (fun p => !p.2.isUndef)) := by
    have h := List.Perm.filterMap (CacheManager.canonSelect o2)
      (perm_insertionSortB strLe (o2.map Prod.fst))
    rw [filterMap_keys_eq_filter o2 h2] at h
    exact h
  have hc : CacheManager.canonPairs o1 = CacheManager.canonPairs o2 := by
    apply eq_of_perm_sorted_keys
    · rw [canonPairs_eq o1, canonPairs_eq o2]
      exact (pa.trans hp).trans pb.symm
    · rw [canonPairs_eq o1]
      exact pairwise_filterMap_canon o1 _
        (pairwise_insertionSortB strLe strLe_total htrans _)
    · rw [canonPairs_eq o2]
      exact pairwise_filterMap_canon o2 _
        (pairwise_insertionSortB strLe strLe_total htrans _)
    · rw [canonPairs_eq o1, map_fst_filterMap_canon o1]
      exact List.Nodup.sublist (List.filter_sublist _) hsortnd1
  unfold CacheManager.createKey
  rw [hc]

/-- C7 witness: the specification's example,
`createKey("users", {isActive: true, age: 25})` equals
`createKey("users", {age: 25, isActive: true})`. -/
theorem C7_witness :
    CacheManager.createKey "users"
      [("isActive", JsValue.bool true), ("age", JsValue.num 25)] =
    CacheManager.createKey "users"
      [("age", JsValue.num 25), ("isActive", JsValue.bool true)] :=
  C7_createKey_order_insensitive "users"
    [("isActive", JsValue.bool true), ("age", JsValue.num 25)]
    [("age", JsValue.num 25), ("isActive", JsValue.bool true)]
    (by decide) (by decide)
    (by
      show ([("isActive", JsValue.bool true), ("age", JsValue.num 25)] :
        List (String × JsValue)).Perm
        [("age", JsValue.num 25), ("isActive", JsValue.bool true)]
      exact List.Perm.swap ("age", JsValue.num 25)
        ("isActive", JsValue.bool true) [])

end FirestoreHelper

